import Mathlib

/-!
Verification of the asynchronous browsing/transfer engine of the multipane
file explorer (source file: multipane_explorer.py).

Modelling conventions used throughout this development:

* Python integers are unbounded, so byte counts, totals and counters are
  modelled as `Nat`/`Int` (no machine-width wraparound occurs in the source).
* Wall-clock readings (`time.perf_counter()`, a float of seconds) are
  modelled as rationals supplied by an abstract clock oracle; the source
  computes `int(self._done * 100 / total)` with float division, which for
  the quantities involved coincides with truncating (floor) division on
  non-negative integers, modelled as `Nat` division.
* Filesystem-dependent probes (`os.path.exists`, `os.path.isdir`, ...) are
  modelled as boolean oracle fields recording the probe results, and
  filesystem mutations are recorded as an explicit effect trace.
-/

namespace MultiPane

/-- `SEARCH_RESULT_LIMIT` (multipane_explorer.py line 67). -/
def SEARCH_RESULT_LIMIT : Nat := 50000

/-- `FILEOP_SIZE_SCAN_FILE_LIMIT` (line 68). -/
def FILEOP_SIZE_SCAN_FILE_LIMIT : Nat := 6000

/-- `FILEOP_SIZE_SCAN_TIME_MS` (line 69). -/
def FILEOP_SIZE_SCAN_TIME_MS : Nat := 1200

/-! ## FileOpWorker progress state

The progress-related attributes of `FileOpWorker` set up in `__init__`
(lines 253-259): `_total`, `_done`, `_count_progress`, `_last_progress_pct`
and `_last_progress_emit_ts`.  The cooperative `_cancel` flag is handled
separately by the run model below. -/
structure ProgState where
  total : Nat
  done : Nat
  countProgress : Bool
  lastPct : Int
  lastTs : Rat
deriving Repr, DecidableEq

/-- The progress fields as initialised by `FileOpWorker.__init__`:
`_total = 0`, `_done = 0`, `_count_progress = False`,
`_last_progress_pct = -1`, `_last_progress_emit_ts = 0.0`. -/
def initProgState : ProgState :=
  { total := 0, done := 0, countProgress := false, lastPct := -1, lastTs := 0 }

/-- The percentage computed at the top of `_emit_progress` (lines 323-324):
`total = max(1, int(self._total or 1)); pct = min(100, int(self._done * 100 / total))`.
(`self._total or 1` maps `0` to `1`, which `max 1 _` already does.) -/
def pctOf (s : ProgState) : Nat :=
  min 100 (s.done * 100 / max 1 s.total)

/-- `FileOpWorker._emit_progress` (lines 322-340).  The emission condition is
transcribed with Python's operator precedence (`and` binds tighter than
`or`), including the `(now - ts) >= 0.05` disjunct that is nested under
`pct > last`:

`force or pct >= 100 or last < 0 or (pct > last and ((pct - last) >= 1 or (now - ts) >= 0.05))`

Returns the updated state and the emitted percentage, if any. -/
def emitProgress (force : Bool) (now : Rat) (s : ProgState) : ProgState × Option Nat :=
  if force || decide (100 ≤ pctOf s) || decide (s.lastPct < 0) ||
      (decide (s.lastPct < (pctOf s : Int)) &&
        (decide ((1 : Int) ≤ (pctOf s : Int) - s.lastPct) ||
         decide ((1 : Rat) / 20 ≤ now - s.lastTs))) then
    ({ s with lastPct := (pctOf s : Int), lastTs := now }, some (pctOf s))
  else (s, none)

/-! ## Decimal rendering

Python renders integers in decimal (used by `f" - Copy ({i})"` in
`unique_dest_path` and by `str()` in the sort fallback).  We give an
explicit decimal renderer so that its injectivity can be proved. -/

/-- The character for a single decimal digit. -/
def digitCh (d : Nat) : Char := Char.ofNat (48 + d)

/-- Big-endian decimal digits of a natural number (Python `str(n)` for
`n ≥ 0`; `0` renders as `"0"`). -/
def decDigits (n : Nat) : List Char :=
  if _h : n < 10 then [digitCh n]
  else decDigits (n / 10) ++ [digitCh (n % 10)]
decreasing_by exact Nat.div_lt_self (by omega) (by omega)

/-- Python `str(n)` for a natural number. -/
def natStr (n : Nat) : String := String.mk (decDigits n)

/-- Python `str(n)` for an integer. -/
def intStr (n : Int) : String :=
  if n < 0 then "-" ++ natStr n.natAbs else natStr n.natAbs

/-! ## FastDirModel rows and data (lines 1471-1570)

A row dict built by `DirEnumWorker.run` (lines 1609-1617) has keys
`name`, `name_l`, `path`, `is_dir`, `size`, `mtime`, `type`; `size` and
`mtime` start as `None` and are filled in by `apply_stat`. -/
structure Row where
  name : String
  nameL : String
  path : String
  isDir : Bool
  size : Option Int
  mtime : Option Rat
  type : String
deriving Repr, DecidableEq

/-- The Qt item-data roles exercised by `FastDirModel.data` and
`StatOverlayProxy.data`: the standard roles plus the custom roles
`IS_DIR_ROLE`, `SIZE_BYTES_ROLE` and `NAME_FOLD_ROLE` (lines 1377-1380). -/
inductive Role where
  | display
  | edit
  | toolTip
  | userRole
  | decoration
  | isDirRole
  | sizeBytesRole
  | nameFoldRole
deriving Repr, DecidableEq

/-- Values returned by the `data` methods.  Rendered strings whose exact
text no claim depends on are kept as injective constructors instead of
being formatted: `humanSize n` stands for the string `human_size(n)`,
`dateText t` for `QDateTime.fromSecsSinceEpoch(t).toString(...)`,
`date t` for a `QDateTime` holding epoch seconds `t` (`date none` is the
null `QDateTime()`), and `icon b` for the decoration icon (directory icon
when `b`). -/
inductive DVal where
  | none
  | str (s : String)
  | int (n : Int)
  | boolV (b : Bool)
  | date (t : Option Int)
  | humanSize (n : Int)
  | dateText (t : Int)
  | icon (dir : Bool)
deriving Repr, DecidableEq

/-- `FastDirModel.data` (lines 1514-1570) for a valid index holding row `r`
at column `c`.  Notes kept faithful to the source:
* column 1 returns `""`/`0` for a directory before ever consulting the
  stored size (lines 1537, 1550, 1565);
* the `EditRole` branch returns the `type` string for every column other
  than 0, 1 and 3 (the `else` on line 1554 pairs with `if c==3`);
* `QDateTime.fromSecsSinceEpoch(int(r["mtime"]))` truncates the float
  seconds, modelled by `Rat.floor` (mtimes are non-negative);
* on line 1553 Python's truthiness makes an `mtime` of `0.0` fall to the
  null `QDateTime()`;
* on line 1568 `r.get("name_l") or ...` falls back to the lowered name
  when `name_l` is empty. -/
def fastDirData (r : Row) (c : Nat) (role : Role) : DVal :=
  match role with
  | .decoration => if c = 0 then .icon r.isDir else .none
  | .display =>
      if c = 0 then .str r.name
      else if c = 1 then
        (if r.isDir then .str "" else
          match r.size with
          | Option.none => .str ""
          | some n => .humanSize n)
      else if c = 2 then .str r.type
      else if c = 3 then
        (match r.mtime with
         | Option.none => .str ""
         | some t => .dateText t.floor)
      else .none
  | .edit =>
      if c = 0 then .str r.name
      else if c = 1 then
        (if r.isDir then .int 0 else
          match r.size with
          | Option.none => .int 0
          | some n => .int n)
      else if c = 3 then
        (match r.mtime with
         | Option.none => .date Option.none
         | some t => if t = 0 then .date Option.none else .date (some t.floor))
      else .str r.type
  | .toolTip => .str r.path
  | .userRole => .str r.path
  | .isDirRole => .boolV r.isDir
  | .sizeBytesRole =>
      if r.isDir then .int 0 else
        match r.size with
        | Option.none => .int 0
        | some n => .int n
  | .nameFoldRole =>
      if c = 0 then .str (if r.nameL = "" then r.name.toLower else r.nameL)
      else .none

/-- The `FastDirModel` state: its `_root` and `_rows` (line 1474). -/
structure FDModel where
  root : String
  rows : List Row
deriving Repr, DecidableEq

/-- `FastDirModel.reset_dir` (lines 1480-1481): discards every row (the
icon cache, also cleared there, is not part of this model). -/
def resetDir (_m : FDModel) (path : String) : FDModel :=
  { root := path, rows := [] }

/-- `FastDirModel.apply_stat` (lines 1494-1504): out-of-range rows are
ignored; `size` (resp. `mtime`) is assigned only when it is still `None`
and the incoming value is not `None`.  The `dataChanged` notification is
UI-only and not modelled. -/
def applyStat (m : FDModel) (row : Nat) (sizeVal : Option Int) (mtimeVal : Option Rat) :
    FDModel :=
  if h : row < m.rows.length then
    let r := m.rows.get ⟨row, h⟩
    let r1 := if r.size = Option.none ∧ sizeVal ≠ Option.none then
        { r with size := sizeVal } else r
    let r2 := if r1.mtime = Option.none ∧ mtimeVal ≠ Option.none then
        { r1 with mtime := mtimeVal } else r1
    { m with rows := m.rows.set row r2 }
  else m

/-- A sequence of `apply_stat` calls, applied in order. -/
def applyStatMany (m : FDModel) (calls : List (Nat × Option Int × Option Rat)) : FDModel :=
  calls.foldl (fun acc c => applyStat acc c.1 c.2.1 c.2.2) m

/-! ## StatOverlayProxy.data (lines 1776-1841)

The proxy consults its `_cache` keyed by file path; `rec` below is
`self._cache.get(p)` (a `(size, mtime)` pair), `isDir` the result of
`src.isDir(...)`, and `superD` whatever `super().data(index, role)`
returns on the fallthrough paths. -/
def statOverlayData (isDir : Bool) (rec : Option (Int × Option Rat)) (c : Nat)
    (role : Role) (superD : DVal) : DVal :=
  if c ≠ 1 ∧ c ≠ 3 then superD
  else if c = 1 then
    if isDir then
      match role with
      | .sizeBytesRole => .int 0
      | .edit => .int 0
      | .display => .str ""
      | _ => superD
    else
      match rec with
      | some (sz, _) =>
          (match role with
           | .sizeBytesRole => .int sz
           | .edit => .int sz
           | .display => .humanSize sz
           | _ => superD)
      | Option.none =>
          (match role with
           | .sizeBytesRole => .int 0
           | .edit => .int 0
           | .display => .str ""
           | _ => superD)
  else
    match rec with
    | some (_, some t) =>
        (match role with
         | .display => .dateText t.floor
         | .edit => .date (some t.floor)
         | _ => superD)
    | _ =>
        (match role with
         | .display => .str ""
         | .edit => .date Option.none
         | _ => superD)

/-! ## FsSortProxy ordering (lines 1420-1468) -/

/-- The two Qt sort directions. -/
inductive SortOrder where
  | ascending
  | descending
deriving Repr, DecidableEq

/-- Python truthiness of a data value, used by the `x or y` chains. -/
def dvalTruthy : DVal → Bool
  | .none => false
  | .str s => s ≠ ""
  | .int n => n ≠ 0
  | .boolV b => b
  | .date _ => true
  | .humanSize _ => true
  | .dateText _ => true
  | .icon _ => true

/-- Python `x or y` on data values. -/
def pyOr (a b : DVal) : DVal := if dvalTruthy a then a else b

/-- Python `int(v)` for the values that reach it on the size column (always
integers there; other kinds would raise, which the surrounding
`try/except` turns into a fallthrough that this model never needs). -/
def dvalInt : DVal → Int
  | .int n => n
  | .boolV b => if b then 1 else 0
  | _ => 0

/-- Python `str(v)` for data values, used only by the final case-insensitive
tie-break fallback (line 1466).  Values that are already strings render as
themselves; the remaining renderings are abstract but injective per kind
(no claim depends on their exact text). -/
def dvalPyStr : DVal → String
  | .none => "None"
  | .str s => s
  | .int n => intStr n
  | .boolV b => if b then "True" else "False"
  | .date Option.none => "QDateTime()"
  | .date (some t) => "QDateTime(" ++ intStr t ++ ")"
  | .humanSize n => "size " ++ intStr n
  | .dateText t => "datetext " ++ intStr t
  | .icon b => if b then "diricon" else "fileicon"

/-- `QDateTime` ordering: an invalid (null) `QDateTime` sorts before any
valid one and is not less than another invalid one. -/
def qdtLt : Option Int → Option Int → Bool
  | Option.none, Option.none => false
  | Option.none, some _ => true
  | some _, Option.none => false
  | some a, some b => decide (a < b)

/-- `FsSortProxy.lessThan` (lines 1424-1468) over a `FastDirModel` source
(which has no `isDir` method, so the directory flags come from
`IS_DIR_ROLE` data).  `col` is the shared column of the two indices.
The `QDateTime` comparison on line 1461-1462 applies only when both
`EditRole` values are `QDateTime`s, i.e. on column 3; column 2 falls to
the generic lowered-string comparison of the `EditRole` values. -/
def lessThan (ord : SortOrder) (col : Nat) (l r : Row) : Bool :=
  let ldir := dvalTruthy (fastDirData l col .isDirRole)
  let rdir := dvalTruthy (fastDirData r col .isDirRole)
  if ldir ≠ rdir then
    match ord with
    | .ascending => ldir && !rdir
    | .descending => !ldir && rdir
  else if col = 1 then
    let lv := dvalInt (pyOr (fastDirData l col .sizeBytesRole)
      (pyOr (fastDirData l col .edit) (.int 0)))
    let rv := dvalInt (pyOr (fastDirData r col .sizeBytesRole)
      (pyOr (fastDirData r col .edit) (.int 0)))
    decide (lv < rv)
  else if col = 0 then
    dvalPyStr (fastDirData l col .nameFoldRole) < dvalPyStr (fastDirData r col .nameFoldRole)
  else
    match fastDirData l col .edit, fastDirData r col .edit with
    | .date a, .date b => qdtLt a b
    | lv, rv => (dvalPyStr lv).toLower < (dvalPyStr rv).toLower

/-- Displayed relative order of two entries under a Qt sort request:
with `AscendingOrder` the view shows `a` before `b` iff `lessThan a b`;
with `DescendingOrder` the comparison result is inverted, so `a` is shown
before `b` iff `lessThan b a`. -/
def displayedBefore (ord : SortOrder) (col : Nat) (a b : Row) : Bool :=
  match ord with
  | .ascending => lessThan ord col a b
  | .descending => lessThan ord col b a

/-! ## unique_dest_path (lines 144-149) -/

/-- Model of `os.path.join(d, n)` for a simple name `n`. -/
def joinPath (d n : String) : String := d ++ "/" ++ n

/-- The candidate name tried at loop step `k` of `unique_dest_path`:
step 0 is the original `name` (`os.path.splitext` guarantees
`base ++ ext = name`), step 1 appends `" - Copy"`, and step `k ≥ 2`
appends `" - Copy (k)"`, always between the stem and the extension. -/
def candName (base ext : String) : Nat → String
  | 0 => base ++ ext
  | 1 => base ++ " - Copy" ++ ext
  | (k+2) => base ++ " - Copy (" ++ natStr (k + 2) ++ ")" ++ ext

/-- The `while os.path.exists(...)` loop of `unique_dest_path`, with the
directory contents abstracted as the list `ex` of names present in
`dst_dir` (`os.path.exists(os.path.join(dst_dir, c))` iff `c ∈ ex`).
The source loop is unbounded; here it carries fuel, and
`ex.length + 2` fuel is proved sufficient below. -/
def uniqueGo (ex : List String) (base ext : String) : String → Nat → Nat → String
  | cand, _, 0 => cand
  | cand, i, fuel + 1 =>
      if cand ∈ ex then uniqueGo ex base ext (candName base ext i) (i + 1) fuel
      else cand

/-- `unique_dest_path(dst_dir, name)` restricted to the returned NAME
(the source returns `os.path.join(dst_dir, candidate)`). -/
def uniqueDestName (ex : List String) (base ext : String) : String :=
  uniqueGo ex base ext (base ++ ext) 1 (ex.length + 2)

/-! ## FileOpWorker run model (lines 241-507)

The run is modelled in three layers:
* `Act`: the atomic steps a run performs — the progress helpers
  `_tick_progress` / `_tick_count_unit` / `_skip_source_progress` /
  `_emit_source_done`, status emissions, and filesystem effects;
* `itemProgram`: the pure branch structure of the per-source body of
  `FileOpWorker.run` (lines 405-499), compiling one source item to its
  list of `Act`s given the oracle fields recording its filesystem probes;
* `execActs` / `runLoop` / `workerRun`: execution of those acts against
  the progress state, with `time.perf_counter()` readings supplied by a
  clock oracle indexed by reading count, and the cooperative `_cancel`
  flag polled at source-item boundaries through a second oracle. -/

/-- Filesystem mutations performed by `FileOpWorker`.  `copyFile src dst`
stands for the buffered streaming write of `_copy_file` (which opens `dst`
with mode `"wb"`, truncating any existing file); `copyTree` for
`_copy_dir_recursive`'s directory creations and file writes under `dst`;
`mkdirsParent dst` for the `os.makedirs(os.path.dirname(dst), exist_ok=True)`
at the top of `_copy_file`.  The best-effort `shutil.copystat` metadata
copy is not tracked. -/
inductive Eff where
  | mkdirsParent (dst : String)
  | mkdirsDir (dst : String)
  | rmtree (p : String)
  | removeFile (p : String)
  | copyFile (src dst : String)
  | copyTree (src dst : String)
  | movePath (src target : String)
deriving Repr, DecidableEq

/-- Observable events of a `FileOpWorker` run: the four Qt signals plus the
filesystem effect trace. -/
inductive Event where
  | progress (pct : Nat)
  | status (msg : String)
  | finishedOk
  | errorE (msg : String)
  | fx (e : Eff)
deriving Repr, DecidableEq

/-- Atomic steps of the run body.  `skipSrc cached fresh` models
`_skip_source_progress` (lines 354-363), whose delta is the cached
per-source size when present and otherwise a fresh `_size_of` walk,
supplied as the oracle value `fresh`. -/
inductive Act where
  | tickBytes (delta : Int)
  | tickUnits (u : Int)
  | skipSrc (cached : Option Int) (fresh : Int)
  | srcDone
  | statusA (msg : String)
  | effA (e : Eff)
deriving Repr, DecidableEq

/-- Machine state while executing a run: the progress fields plus the
number of `time.perf_counter()` readings taken so far (each call to
`_emit_progress` takes one reading; the clock oracle maps reading index
to the time read). -/
structure MState where
  prog : ProgState
  k : Nat
deriving Repr, DecidableEq

/-- One call to `_emit_progress`: takes a clock reading and emits the
percentage when the throttle allows. -/
def runEmit (clock : Nat → Rat) (force : Bool) (m : MState) : MState × List Event :=
  match emitProgress force (clock m.k) m.prog with
  | (p, some pct) => ({ prog := p, k := m.k + 1 }, [.progress pct])
  | (p, Option.none) => ({ prog := p, k := m.k + 1 }, [])

/-- Execution of one `Act`, mirroring `_tick_progress` (lines 342-346),
`_tick_count_unit` (348-352), `_skip_source_progress` (354-363) and
`_emit_source_done` (365-370); `max(0, int(..))` is `Int.toNat`. -/
def execAct (clock : Nat → Rat) (a : Act) (m : MState) : MState × List Event :=
  match a with
  | .tickBytes d =>
      if m.prog.countProgress then (m, [])
      else runEmit clock false
        { m with prog := { m.prog with done := m.prog.done + d.toNat } }
  | .tickUnits u =>
      if !m.prog.countProgress then (m, [])
      else runEmit clock false
        { m with prog := { m.prog with done := m.prog.done + u.toNat } }
  | .skipSrc cached fresh =>
      if m.prog.countProgress then (m, [])
      else runEmit clock false
        { m with prog := { m.prog with done := m.prog.done + (cached.getD fresh).toNat } }
  | .srcDone =>
      if m.prog.countProgress then
        runEmit clock false
          { m with prog := { m.prog with done := m.prog.done + 1 } }
      else runEmit clock false m
  | .statusA s => (m, [.status s])
  | .effA e => (m, [.fx e])

/-- Sequential execution of a list of acts. -/
def execActs (clock : Nat → Rat) : List Act → MState → MState × List Event
  | [], m => (m, [])
  | a :: rest, m =>
      let r1 := execAct clock a m
      let r2 := execActs clock rest r1.1
      (r2.1, r1.2 ++ r2.2)

/-! ### _calc_total (lines 279-320) -/

/-- One file yielded by `_iter_files` during the size scan, together with
the `time.perf_counter()` reading at the budget check that follows it. -/
structure ScanFile where
  sz : Int
  now : Rat
deriving Repr, DecidableEq

/-- One source as seen by `_calc_total`: a real directory walks its files;
anything else is a single `getsize` (`none` when it raised). -/
inductive ScanSrc where
  | dirSrc (files : List ScanFile)
  | fileSrc (size : Option Int) (now : Rat)
deriving Repr, DecidableEq

/-- The inner per-file loop of `_calc_total` for a directory source
(lines 290-301): returns `inr` with the updated counters when a budget
(file-count or deadline) is exceeded, `inl` when the walk completes. -/
def dirScanFiles (deadline : Rat) : List ScanFile → Nat → Nat → (Nat × Nat) ⊕ (Nat × Nat)
  | [], scanned, total => .inl (scanned, total)
  | f :: rest, scanned, total =>
      let cur := f.sz.toNat
      let scanned1 := scanned + 1
      let total1 := total + cur
      if FILEOP_SIZE_SCAN_FILE_LIMIT ≤ scanned1 ∨ deadline ≤ f.now then .inr (scanned1, total1)
      else dirScanFiles deadline rest scanned1 total1

/-- The source loop of `_calc_total`.  On a budget hit it switches to
count-based progress with `_total = max(1, scanned, len(self.srcs))` and
`_done = 0`; on completion it keeps byte-based progress with
`_total = max(1, total)` and resets the throttle fields (lines 317-320).
(`_src_size_cache` is modelled by the per-item `sizeCache` oracle field;
the per-source `_cancel` poll merely truncates `srcs` to a prefix, which
the quantification over `srcs` covers.) -/
def calcTotalGo (deadline : Rat) (nsrcs : Nat) :
    List ScanSrc → Nat → Nat → ProgState → ProgState
  | [], _, total, s =>
      { s with countProgress := false, total := max 1 total, lastPct := -1, lastTs := 0 }
  | .dirSrc files :: rest, scanned, total, s =>
      (match dirScanFiles deadline files scanned total with
       | .inr (scanned1, _) =>
           { s with countProgress := true, total := max 1 (max scanned1 nsrcs), done := 0 }
       | .inl (scanned1, total1) => calcTotalGo deadline nsrcs rest scanned1 total1 s)
  | .fileSrc size now :: rest, scanned, total, s =>
      let total1 := total + (size.map Int.toNat).getD 0
      let scanned1 := scanned + 1
      if FILEOP_SIZE_SCAN_FILE_LIMIT ≤ scanned1 ∨ deadline ≤ now then
        { s with countProgress := true, total := max 1 (max scanned1 nsrcs), done := 0 }
      else calcTotalGo deadline nsrcs rest scanned1 total1 s

/-- `FileOpWorker._calc_total`, entered with the state left by `__init__`. -/
def calcTotal (deadline : Rat) (srcs : List ScanSrc) (s : ProgState) : ProgState :=
  calcTotalGo deadline srcs.length srcs 0 0 s

/-! ### Per-item branch structure of FileOpWorker.run -/

/-- The operation kind (`self.op` is the string `"copy"` or `"move"`). -/
inductive OpKind where
  | copy
  | move
deriving Repr, DecidableEq

/-- The `self.op` string. -/
def OpKind.str : OpKind → String
  | .copy => "copy"
  | .move => "move"

/-- Python `self.op.title()` as used by the pane dialogs. -/
def OpKind.title : OpKind → String
  | .copy => "Copy"
  | .move => "Move"

/-- A conflict-map entry: the strings `"skip"`, `"copy"` (keep both) and
`"overwrite"` used by `conflict_map`. -/
inductive CAction where
  | skip
  | keepBoth
  | overwrite
deriving Repr, DecidableEq

/-- Oracle record for one source item of a run: the results of every
filesystem probe the body of `FileOpWorker.run` makes for it, in source
order.  `uniqueDst`/`uniqueDst2` record the `unique_dest_path` results at
the two possible call moments; `raiseMsg` is `some msg` when this item's
copy/move I/O raises an unhandled exception whose `str()` is `msg`
(aborting the whole run via the outer `try`). -/
structure ItemCtx where
  src : String
  base : String
  exists_ : Bool
  sameAsDst : Bool
  isRealDirSrc : Bool
  nested : Bool
  dstExists : Bool
  action : Option CAction
  dstIsRealDir : Bool
  uniqueDst : String
  uniqueDst2 : String
  sizeCache : Option Int
  sizeFresh : Int
  chunks : List Nat
  treeChunks : List (List Nat)
  moveRaises : Bool
  dstExists2 : Bool
  raiseMsg : Option String
deriving Repr, DecidableEq

/-- How one source item ended. -/
inductive ItemOutcome where
  | missing
  | sameSkip
  | nestedBlocked
  | conflictSkip
  | performed
  | raised (msg : String)
deriving Repr, DecidableEq

/-- `_copy_file(src, dst)` (lines 372-383): parent `makedirs`, the
truncating streaming write with one byte tick per chunk, then one count
unit.  (Chunk-boundary cancellation checks do not fire in this
item-granular model; `shutil.copystat` is metadata-only.) -/
def copyFileActs (src dst : String) (chunks : List Nat) : List Act :=
  .effA (.mkdirsParent dst) :: .effA (.copyFile src dst) ::
    (chunks.map (fun c => Act.tickBytes (c : Int)) ++ [.tickUnits 1])

/-- `_copy_dir_recursive(src, dst)` (lines 385-395): directory creations
and file writes under `dst` (the `copyTree` effect), with each contained
file ticking its chunks and one count unit. -/
def copyTreeActs (src dst : String) (treeChunks : List (List Nat)) : List Act :=
  .effA (.copyTree src dst) ::
    (treeChunks.map (fun ch => ch.map (fun c => Act.tickBytes (c : Int)) ++ [Act.tickUnits 1])).flatten

/-- The copy branch of the run body (lines 436-455), entered with the
destination `dst` in effect after the pre-flight retarget. -/
def copyBranch (_dstDir : String) (it : ItemCtx) (dst : String) : List Act × ItemOutcome :=
  if it.isRealDirSrc then
    match it.dstExists, it.action with
    | true, some .skip =>
        ([.skipSrc it.sizeCache it.sizeFresh, .srcDone], .conflictSkip)
    | true, some .keepBoth =>
        (Act.effA (.mkdirsDir it.uniqueDst) ::
          copyTreeActs it.src it.uniqueDst it.treeChunks ++ [.srcDone], .performed)
    | true, some .overwrite =>
        (Act.effA (.rmtree dst) :: Act.effA (.mkdirsDir dst) ::
          copyTreeActs it.src dst it.treeChunks ++ [.srcDone], .performed)
    | _, _ =>
        (Act.effA (.mkdirsDir dst) ::
          copyTreeActs it.src dst it.treeChunks ++ [.srcDone], .performed)
  else
    match it.dstExists, it.action with
    | true, some .skip =>
        ([.skipSrc it.sizeCache it.sizeFresh, .srcDone], .conflictSkip)
    | true, some .keepBoth =>
        (copyFileActs it.src it.uniqueDst it.chunks ++ [.srcDone], .performed)
    | _, _ =>
        (copyFileActs it.src dst it.chunks ++ [.srcDone], .performed)

/-- The move branch of the run body (lines 458-497). -/
def moveBranch (dstDir : String) (it : ItemCtx) (dst0 : String) : List Act × ItemOutcome :=
  let keepBoth := it.action = some CAction.keepBoth
  if it.dstExists ∧ it.action = some CAction.skip then
    ([.skipSrc it.sizeCache it.sizeFresh, .srcDone], .conflictSkip)
  else
    let dst := if it.dstExists ∧ keepBoth then it.uniqueDst else dst0
    let preActs : List Act :=
      if it.dstExists ∧ it.action = some CAction.overwrite then
        [.effA (if it.dstIsRealDir then .rmtree dst else .removeFile dst)]
      else []
    if !it.moveRaises then
      (preActs ++
        [.effA (.movePath it.src (if keepBoth then dst else dstDir)),
         .tickBytes (it.sizeCache.getD it.sizeFresh), .srcDone], .performed)
    else
      if it.isRealDirSrc then
        let fbRemove : List Act :=
          if it.dstExists2 ∧ it.action = some CAction.overwrite then [.effA (.rmtree dst)] else []
        let dst2 := if it.dstExists2 ∧ it.action = some CAction.keepBoth then it.uniqueDst2 else dst
        (preActs ++ fbRemove ++ (Act.effA (.mkdirsDir dst2) ::
          copyTreeActs it.src dst2 it.treeChunks) ++
          [.effA (.rmtree it.src), .srcDone], .performed)
      else
        let fbRemove : List Act :=
          if it.dstExists2 ∧ it.action = some CAction.overwrite then [.effA (.removeFile dst)] else []
        let dst2 := if it.dstExists2 ∧ it.action = some CAction.keepBoth then it.uniqueDst2 else dst
        (preActs ++ fbRemove ++ copyFileActs it.src dst2 it.chunks ++
          [.effA (.removeFile it.src), .srcDone], .performed)

/-- The per-source body of `FileOpWorker.run` (lines 405-499) compiled to
acts: the missing-source skip (407-409), the same-path pre-flight (415-422,
retargeting for copy, skipping for move), the nested-destination rejection
(425-430), then the copy or move branch; every non-aborting path ends with
`_emit_source_done` (line 499 or inside the skip branches). -/
def itemProgram (op : OpKind) (dstDir : String) (it : ItemCtx) : List Act × ItemOutcome :=
  if !it.exists_ then ([.srcDone], .missing)
  else
    let dst0 := joinPath dstDir it.base
    if it.sameAsDst ∧ op = OpKind.move then
      ([.statusA ("Skipped same path: " ++ it.base),
        .skipSrc it.sizeCache it.sizeFresh, .srcDone], .sameSkip)
    else
      let dst1 := if it.sameAsDst then it.uniqueDst else dst0
      if it.isRealDirSrc ∧ it.nested then
        ([.statusA ("Skipped nested destination: " ++ it.base),
          .skipSrc it.sizeCache it.sizeFresh, .srcDone], .nestedBlocked)
      else
        match it.raiseMsg with
        | some msg => ([], .raised msg)
        | Option.none =>
            match op with
            | .copy => copyBranch dstDir it dst1
            | .move => moveBranch dstDir it dst1

/-- The source loop of `FileOpWorker.run` (lines 405-499): polls the
`_cancel` oracle before each item (line 406), executes the item's acts,
and aborts on an unhandled exception.  Returns the per-item outcomes and
event lists, the final machine state, the next `_cancel` poll index, and
the aborting message, if any. -/
def runLoop (op : OpKind) (dstDir : String) (canc : Nat → Bool) (clock : Nat → Rat) :
    List ItemCtx → Nat → MState →
    List (ItemOutcome × List Event) × MState × Nat × Option String
  | [], i, m => ([], m, i, Option.none)
  | it :: rest, i, m =>
      if canc i then ([], m, i, Option.none)
      else
        let p := itemProgram op dstDir it
        let r1 := execActs clock p.1 m
        match p.2 with
        | .raised msg => ([(ItemOutcome.raised msg, r1.2)], r1.1, i + 1, some msg)
        | outc =>
            let rest1 := runLoop op dstDir canc clock rest (i + 1) r1.1
            ((outc, r1.2) :: rest1.1, rest1.2.1, rest1.2.2.1, rest1.2.2.2)

/-- The result of a whole `FileOpWorker.run`. -/
structure RunResult where
  outs : List (ItemOutcome × List Event)
  events : List Event
  final : MState
deriving Repr, DecidableEq

/-- `FileOpWorker.run` (lines 397-507): `_calc_total`, the preparing
status, the source loop, then — unless an exception aborted the run — the
cancellation check (501-502, emitting the sentinel message on the error
signal) or the completion sequence `_done = max(_done, _total)`;
`_emit_progress(force=True)`; `finished_ok` (503-505).  An exception
surfaces as `error(str(e))` (507). -/
def workerRun (op : OpKind) (dstDir : String) (deadline : Rat) (scans : List ScanSrc)
    (items : List ItemCtx) (canc : Nat → Bool) (clock : Nat → Rat) : RunResult :=
  let s0 := calcTotal deadline scans initProgState
  let m0 : MState := { prog := s0, k := 0 }
  let prep : Event := .status
    (if s0.countProgress then "Preparing " ++ op.str ++ " (quick estimate) ..."
     else "Preparing " ++ op.str ++ " ...")
  let r := runLoop op dstDir canc clock items 0 m0
  let itemEvents := (r.1.map Prod.snd).flatten
  match r.2.2.2 with
  | some msg => { outs := r.1, events := prep :: itemEvents ++ [.errorE msg], final := r.2.1 }
  | Option.none =>
      if canc r.2.2.1 then
        { outs := r.1, events := prep :: itemEvents ++ [.errorE "Operation cancelled."],
          final := r.2.1 }
      else
        let m1 := r.2.1
        let m2 : MState :=
          { m1 with prog := { m1.prog with done := max m1.prog.done m1.prog.total } }
        let e := runEmit clock true m2
        { outs := r.1, events := prep :: itemEvents ++ e.2 ++ [.finishedOk], final := e.1 }

/-! ### ExplorerPane glue (lines 3995-4083) -/

/-- How the pane presents a terminal error-signal message. -/
inductive Presentation where
  | statusFlash (msg : String)
  | criticalDialog (title msg : String)
deriving Repr, DecidableEq

/-- The `_on_error` handler installed by `_start_bg_op` (lines 4079-4083):
the sentinel message becomes a status flash, anything else a critical
dialog. -/
def paneOnError (op : OpKind) (msg : String) : Presentation :=
  if msg = "Operation cancelled." then .statusFlash (op.title ++ " cancelled")
  else .criticalDialog (op.title ++ " failed") msg

/-- Oracle record for one source in the pane-level pre-filter of
`_start_bg_op` (lines 4001-4027). -/
structure PaneSrc where
  path : String
  exists_ : Bool
  sameAsDst : Bool
  isRealDir : Bool
  nested : Bool
deriving Repr, DecidableEq

/-- The pre-filter loop of `_start_bg_op` (lines 4006-4027): returns
`(valid_srcs, skipped_same, blocked_nested, auto_map keys)` in source
order. -/
def startBgFilter (op : OpKind) :
    List PaneSrc → List PaneSrc × List PaneSrc × List PaneSrc × List PaneSrc
  | [] => ([], [], [], [])
  | s :: rest =>
      let r := startBgFilter op rest
      if s.path = "" ∨ !s.exists_ then r
      else if s.sameAsDst then
        (match op with
         | .copy => (s :: r.1, r.2.1, r.2.2.1, s :: r.2.2.2)
         | .move => (r.1, s :: r.2.1, r.2.2.1, r.2.2.2))
      else if s.isRealDir ∧ s.nested then (r.1, r.2.1, s :: r.2.2.1, r.2.2.2)
      else (s :: r.1, r.2.1, r.2.2.1, r.2.2.2)

/-- Whether `_start_bg_op` pops the "blocked" warning dialog
(lines 4029-4037): exactly when `blocked_nested` is non-empty. -/
def startBgWarns (op : OpKind) (srcs : List PaneSrc) : Bool :=
  (startBgFilter op srcs).2.2.1 ≠ []

/-! ## SearchWorker (lines 1644-1736)

The searched subtree is modelled as a tree of nodes classified the way
`entry.is_dir(follow_symlinks=False)` classifies them: `dir` is a real
directory (with its `entry.is_symlink()` flag for the defensive check on
line 1720, and a `readable` flag — an unreadable directory's `os.scandir`
raises and the `except` on line 1725 skips it); everything else, including
symlinks, is `file` (matched but never traversed).  The match predicate
built by `__init__` from the pattern string (`self._tests`) is abstracted
as a list of tests applied to the lowered name, exactly as `_match`
(lines 1673-1677) does. -/
inductive FsNode where
  | file (name : String)
  | dir (name : String) (symlink : Bool) (readable : Bool) (children : List FsNode)

mutual

/-- Size measure used for the traversal's termination. -/
def nodeSize : FsNode → Nat
  | .file _ => 1
  | .dir _ _ _ cs => 2 + nodesSize cs

/-- Total size of a list of nodes. -/
def nodesSize : List FsNode → Nat
  | [] => 0
  | c :: rest => nodeSize c + nodesSize rest

end

/-- `SearchWorker._match` (lines 1673-1677). -/
def searchMatch (tests : List (String → Bool)) (nameLower : String) : Bool :=
  tests.any (fun t => t nameLower)

/-- One result record appended on a match (lines 1707-1712). -/
structure SResult where
  name : String
  path : String
  isDir : Bool
  folder : String
deriving Repr, DecidableEq

/-- Signals emitted by `SearchWorker.run`. -/
inductive SEvent where
  | batch (base : String) (rs : List SResult)
  | truncatedS (n : Nat)
  | errorS (msg : String)
  | finishedS
deriving Repr, DecidableEq

/-- A directory waiting on the traversal stack: its path, its
`os.path.relpath(path, base)` (with `"."` already mapped to `""`), its
readability, and its children. -/
structure Frame where
  path : String
  rel : String
  readable : Bool
  children : List FsNode

/-- Traversal state of a `SearchWorker` run: `_matches`, `_truncated`, the
internally set part of `_cancel` (line 1701), the number of reads of
`_cancel` taken so far (the index into the external cancellation oracle —
`cancel()` runs on another thread, so each read may observe a value the
caller has just set), the current `batch`, and the events emitted so
far. -/
structure SState where
  nMatches : Nat
  truncated : Bool
  cancelI : Bool
  poll : Nat
  batch : List SResult
  events : List SEvent
deriving Repr, DecidableEq

/-- The relpath of a pushed child directory under the base. -/
def childRel (rl name : String) : String :=
  if rl = "" then name else rl ++ "/" ++ name

/-- The traversal loop of `SearchWorker.run` (lines 1682-1727), merged
into one recursion: processing the entry list of the current directory is
the `for` loop; an empty entry list returns to the `while` head, which
checks the stack, reads `_cancel` (one oracle poll — the read is skipped
when the stack is empty, as `and` short-circuits), and pops the next
frame.  A `break` (caller cancellation seen at the top of the `for`, line
1690, or the result cap being reached, lines 1699-1702) drops the
remaining entries and returns to the `while` head.  On a match past the
cap, `_truncated` and `_cancel` are set (1700-1701); otherwise the result
is appended and a full batch of 600 is emitted (1713-1715).  A matching
real directory that is not a symlink is pushed (1718-1724); `list.pop()`
takes the most recently pushed frame, modelled by consing. -/
def searchGo (tests : List (String → Bool)) (cap : Nat) (ext : Nat → Bool) (base : String) :
    List FsNode → String → String → List Frame → SState → SState
  | [], _, _, stack, st =>
      match stack with
      | [] => st
      | f :: rest =>
          let st1 := { st with poll := st.poll + 1 }
          if st.cancelI || ext st.poll then st1
          else searchGo tests cap ext base (if f.readable then f.children else [])
            f.path f.rel rest st1
  | e :: rest, p, rl, stack, st =>
      let st1 := { st with poll := st.poll + 1 }
      if st.cancelI || ext st.poll then searchGo tests cap ext base [] p rl stack st1
      else
        match e with
        | .file name =>
            if searchMatch tests name.toLower then
              if cap ≤ st1.nMatches then
                searchGo tests cap ext base [] p rl stack
                  { st1 with truncated := true, cancelI := true }
              else
                let res : SResult :=
                  { name := name, path := joinPath p name, isDir := false, folder := rl }
                let st2 := { st1 with nMatches := st1.nMatches + 1, batch := st1.batch ++ [res] }
                let st3 := if 600 ≤ st2.batch.length then
                    { st2 with
                      events := st2.events ++ [SEvent.batch base st2.batch]
                      batch := [] }
                  else st2
                searchGo tests cap ext base rest p rl stack st3
            else searchGo tests cap ext base rest p rl stack st1
        | .dir name symlink readable children =>
            let pushed : List Frame :=
              if symlink then stack
              else { path := joinPath p name, rel := childRel rl name,
                     readable := readable, children := children } :: stack
            if searchMatch tests name.toLower then
              if cap ≤ st1.nMatches then
                searchGo tests cap ext base [] p rl stack
                  { st1 with truncated := true, cancelI := true }
              else
                let res : SResult :=
                  { name := name, path := joinPath p name, isDir := true, folder := rl }
                let st2 := { st1 with nMatches := st1.nMatches + 1, batch := st1.batch ++ [res] }
                let st3 := if 600 ≤ st2.batch.length then
                    { st2 with
                      events := st2.events ++ [SEvent.batch base st2.batch]
                      batch := [] }
                  else st2
                searchGo tests cap ext base rest p rl pushed st3
            else searchGo tests cap ext base rest p rl pushed st1
termination_by entries _p _rl stack _st =>
  nodesSize entries + stack.foldr (fun f n => 1 + nodesSize f.children + n) 0
decreasing_by
  all_goals simp_all [nodesSize, nodeSize]
  all_goals try (split <;> simp_all [nodesSize, nodeSize] <;> omega)
  all_goals (left; cases e <;> simp [nodeSize, nodesSize])

/-- The traversal's final state: the loop of `SearchWorker.run` started
on `stack = [base]` with clear flags and an empty batch (lines 1679-1687).
`cap` enters as `max(1, int(max_results))` (line 1654); the root
directory's readability and children describe the filesystem under
`base`. -/
def searchFinal (tests : List (String → Bool)) (maxResults : Nat) (ext : Nat → Bool)
    (base : String) (rootReadable : Bool) (rootChildren : List FsNode) : SState :=
  searchGo tests (max 1 maxResults) ext base [] "" ""
    [{ path := base, rel := "", readable := rootReadable, children := rootChildren }]
    { nMatches := 0, truncated := false, cancelI := false, poll := 0, batch := [], events := [] }

/-- `SearchWorker.run` (lines 1679-1736): the traversal starting from
`stack = [base]`, then the final flush of a partial batch (1729-1730), the
truncation signal when `_truncated` was set (1731-1732), and the `finally`
completion signal (1736). -/
def searchRun (tests : List (String → Bool)) (maxResults : Nat) (ext : Nat → Bool)
    (base : String) (rootReadable : Bool) (rootChildren : List FsNode) : SState :=
  let stF := searchFinal tests maxResults ext base rootReadable rootChildren
  let st1 := if stF.batch ≠ [] then
      { stF with
        events := stF.events ++ [SEvent.batch base stF.batch]
        batch := [] }
    else stF
  let st2 := if st1.truncated then
      { st1 with events := st1.events ++ [SEvent.truncatedS st1.nMatches] }
    else st1
  { st2 with events := st2.events ++ [SEvent.finishedS] }

mutual

/-- The matching entries of a subtree that the traversal can reach:
a node's name is counted when it matches; the children of a real,
readable, non-symlink directory are counted recursively; symlinked or
unreadable directories hide their contents. -/
def reachMatches (tests : List (String → Bool)) : FsNode → Nat
  | .file name => if searchMatch tests name.toLower then 1 else 0
  | .dir name symlink readable children =>
      (if searchMatch tests name.toLower then 1 else 0) +
        (if symlink || !readable then 0 else reachMatchesList tests children)

/-- Total reachable matches of a list of roots. -/
def reachMatchesList (tests : List (String → Bool)) : List FsNode → Nat
  | [] => 0
  | c :: rest => reachMatches tests c + reachMatchesList tests rest

end

/-! ## Observation helpers -/

/-- The percentages carried by the progress events of a trace, in order. -/
def pcts (evs : List Event) : List Nat :=
  evs.filterMap (fun e => match e with | .progress p => some p | _ => Option.none)

/-- The filesystem effects among a list of acts, in order. -/
def effsOf (acts : List Act) : List Eff :=
  acts.filterMap (fun a => match a with | .effA e => some e | _ => Option.none)

/-- The filesystem effects among a list of events, in order. -/
def fxOf (evs : List Event) : List Eff :=
  evs.filterMap (fun e => match e with | .fx ef => some ef | _ => Option.none)

/-- Total number of search results delivered across all batch events. -/
def sResultsCount (evs : List SEvent) : Nat :=
  (evs.map (fun e => match e with | .batch _ rs => rs.length | _ => 0)).sum

/-- The reachable matches still owed by the frames of a traversal stack. -/
def stackReach (tests : List (String → Bool)) (stack : List Frame) : Nat :=
  stack.foldr (fun f n => (if f.readable then reachMatchesList tests f.children else 0) + n) 0

/-- The completion bump of `FileOpWorker.run` line 503:
`self._done = max(self._done, self._total)`. -/
def bumpFull (m : MState) : MState :=
  { m with prog := { m.prog with done := max m.prog.done m.prog.total } }

/-- Monotonicity of a cancellation oracle: once the flag reads true it
stays true (the worker's `_cancel` is only ever set, never cleared). -/
def CancMono (canc : Nat → Bool) : Prop :=
  ∀ i j, i ≤ j → canc i = true → canc j = true

/-- The state invariant of the progress throttle: the last emitted
percentage never exceeds the current percentage (initially `-1`). -/
def StInv (s : ProgState) : Prop := s.lastPct ≤ (pctOf s : Int)

/-- A percentage list is a non-decreasing continuation of `a`. -/
def chainFrom : Int → List Nat → Prop
  | _, [] => True
  | a, p :: ps => a ≤ (p : Int) ∧ chainFrom (p : Int) ps

/-- The last element of a percentage list, or `a` if it is empty. -/
def lastOf (a : Int) : List Nat → Int
  | [] => a
  | p :: ps => lastOf (p : Int) ps

/-- Everything preserved or produced by one progress-touching step: the
throttle invariant is maintained, the emitted percentages continue the
chain of previous emissions and stay within 0..100, `_done` never
decreases, and `_total` and `_count_progress` are untouched. -/
def MonoSpec (m m' : MState) (evs : List Event) : Prop :=
  (StInv m.prog → StInv m'.prog ∧ chainFrom m.prog.lastPct (pcts evs) ∧
    m'.prog.lastPct = lastOf m.prog.lastPct (pcts evs)) ∧
  (∀ p ∈ pcts evs, p ≤ 100) ∧
  m.prog.done ≤ m'.prog.done ∧
  m'.prog.total = m.prog.total ∧
  m'.prog.countProgress = m.prog.countProgress

/-- Relation between an entry state `st` and an exit state `R` of the
traversal loop: the match count never passes the cap and never decreases;
every delivered or pending result is counted by `_matches`; the only
events appended are batches for `base`; `_truncated` is sticky; and when
it turns true below the cap the final count is exactly the cap. -/
def SInv (base : String) (cap : Nat) (st R : SState) : Prop :=
  (st.nMatches ≤ cap → R.nMatches ≤ cap) ∧
  st.nMatches ≤ R.nMatches ∧
  sResultsCount R.events + R.batch.length + st.nMatches =
    sResultsCount st.events + st.batch.length + R.nMatches ∧
  (∃ suffix, R.events = st.events ++ suffix ∧
    ∀ e ∈ suffix, ∃ rs, e = SEvent.batch base rs) ∧
  (st.truncated = true → R.truncated = true) ∧
  (st.nMatches ≤ cap → R.truncated = true → st.truncated = true ∨ R.nMatches = cap)

/-! # Theorems -/

/-! ## C5: directories never report a size -/

/-- **C5**: for every entry that is a directory, the model layer reports
size 0 for the numeric roles (`SIZE_BYTES_ROLE` at any column, `EditRole`
at the size column) and the empty string for display, regardless of
resolver state: whatever `size` is stored in the `FastDirModel` row and
whatever record the `StatOverlayProxy` cache holds for the path. -/
theorem dir_size_always_zero (r : Row) (hr : r.isDir = true) (c : Nat)
    (rec : Option (Int × Option Rat)) (superD : DVal) :
    fastDirData r c .sizeBytesRole = .int 0 ∧
    fastDirData r 1 .edit = .int 0 ∧
    fastDirData r 1 .display = .str "" ∧
    statOverlayData true rec 1 .sizeBytesRole superD = .int 0 ∧
    statOverlayData true rec 1 .edit superD = .int 0 ∧
    statOverlayData true rec 1 .display superD = .str "" := by
  refine ⟨?_, ?_, ?_, rfl, rfl, rfl⟩ <;> simp [fastDirData, hr]

/-- Witness for C5 at a concrete directory row whose stored size and cache
record would, were it a file, report 5 resp. 7 bytes. -/
theorem dir_size_always_zero_witness :
    (⟨"d", "d", "/r/d", true, some 5, some 3, "Folder"⟩ : Row).isDir = true ∧
    fastDirData ⟨"d", "d", "/r/d", true, some 5, some 3, "Folder"⟩ 1 .edit = .int 0 ∧
    statOverlayData true (some (7, some 3)) 1 .display DVal.none = .str "" :=
  ⟨rfl,
   (dir_size_always_zero ⟨"d", "d", "/r/d", true, some 5, some 3, "Folder"⟩ rfl 1
      (some (7, some 3)) DVal.none).2.1,
   (dir_size_always_zero ⟨"d", "d", "/r/d", true, some 5, some 3, "Folder"⟩ rfl 1
      (some (7, some 3)) DVal.none).2.2.2.2.2⟩

/-! ## C6: directories sort first under both directions -/

/-- **C6**: for every pair of entries of which exactly one is a directory,
and for every sort column, the comparator puts the directory first under
both sort requests: ascending displays by `lessThan` directly and the
directory compares less; descending inverts the comparison (the view shows
`a` before `b` iff `lessThan b a`), so the directory is still displayed
first, and the file is never displayed before the directory. -/
theorem dirs_sort_first (ord : SortOrder) (col : Nat) (d f : Row)
    (hd : d.isDir = true) (hf : f.isDir = false) :
    displayedBefore ord col d f = true ∧
    displayedBefore ord col f d = false ∧
    lessThan .ascending col d f = true ∧
    lessThan .descending col f d = true := by
  cases ord <;>
    refine ⟨?_, ?_, ?_, ?_⟩ <;>
      simp [displayedBefore, lessThan, fastDirData, dvalTruthy, hd, hf]

/-- Witness for C6: a concrete directory/file pair at every column of the
view, in both directions. -/
theorem dirs_sort_first_witness :
    displayedBefore .descending 1 ⟨"b", "b", "/r/b", true, Option.none, Option.none, "Folder"⟩
      ⟨"a", "a", "/r/a", false, some 9, some 1, "TXT file"⟩ = true ∧
    displayedBefore .ascending 0 ⟨"b", "b", "/r/b", true, Option.none, Option.none, "Folder"⟩
      ⟨"a", "a", "/r/a", false, some 9, some 1, "TXT file"⟩ = true :=
  ⟨(dirs_sort_first .descending 1 _ _ rfl rfl).1,
   (dirs_sort_first .ascending 0 _ _ rfl rfl).1⟩

/-! ## C10: resolved attributes are write-once until reset_dir -/

/-- One `apply_stat` call never changes an already-resolved size. -/
theorem applyStat_keeps_size (m : FDModel) (row i : Nat) (sv : Option Int)
    (mv : Option Rat) (s0 : Int) (h : (m.rows[i]?).map Row.size = some (some s0)) :
    ((applyStat m row sv mv).rows[i]?).map Row.size = some (some s0) := by
  unfold applyStat
  split
  · rename_i hlt
    by_cases hij : row = i
    · subst hij
      have hget : m.rows[row]? = some (m.rows.get ⟨row, hlt⟩) := by
        simp [List.getElem?_eq_getElem hlt]
      rw [hget] at h
      have hsz : (m.rows.get ⟨row, hlt⟩).size = some s0 := by
        simpa using h
      simp only [List.getElem?_set_self hlt, Option.map_some]
      split
      · rename_i hcond
        rw [hsz] at hcond
        simp at hcond
      · split <;> simpa [List.get_eq_getElem] using hsz
    · simp [List.getElem?_set_ne hij, h]
  · exact h

/-- One `apply_stat` call never changes an already-resolved mtime. -/
theorem applyStat_keeps_mtime (m : FDModel) (row i : Nat) (sv : Option Int)
    (mv : Option Rat) (t0 : Rat) (h : (m.rows[i]?).map Row.mtime = some (some t0)) :
    ((applyStat m row sv mv).rows[i]?).map Row.mtime = some (some t0) := by
  unfold applyStat
  split
  · rename_i hlt
    by_cases hij : row = i
    · subst hij
      have hget : m.rows[row]? = some (m.rows.get ⟨row, hlt⟩) := by
        simp [List.getElem?_eq_getElem hlt]
      rw [hget] at h
      have hmt : (m.rows.get ⟨row, hlt⟩).mtime = some t0 := by
        simpa using h
      simp only [List.getElem?_set_self hlt, Option.map_some]
      split
      · rename_i hcond
        split
        · rename_i hcond2
          simp only [] at hcond2
          rw [hmt] at hcond2
          simp at hcond2
        · simpa [List.get_eq_getElem] using hmt
      · split
        · rename_i hcond2
          rw [hmt] at hcond2
          simp at hcond2
        · simpa [List.get_eq_getElem] using hmt
    · simp [List.getElem?_set_ne hij, h]
  · exact h

/-- **C10**: resolved attributes are write-once within a browsing session:
once a row's size (resp. mtime) holds a non-`None` value, no later sequence
of `apply_stat` calls changes it — later stat results for the row are
silently ignored — and resolved values are discarded only wholesale, by
`reset_dir`, which empties the row list. -/
theorem resolved_attrs_write_once (m : FDModel)
    (calls : List (Nat × Option Int × Option Rat)) (i : Nat) :
    (∀ s0 : Int, (m.rows[i]?).map Row.size = some (some s0) →
      ((applyStatMany m calls).rows[i]?).map Row.size = some (some s0)) ∧
    (∀ t0 : Rat, (m.rows[i]?).map Row.mtime = some (some t0) →
      ((applyStatMany m calls).rows[i]?).map Row.mtime = some (some t0)) ∧
    (∀ p, (resetDir m p).rows = []) := by
  refine ⟨?_, ?_, fun _ => rfl⟩
  · intro s0 h
    induction calls generalizing m with
    | nil => exact h
    | cons c rest ih =>
        exact ih (applyStat m c.1 c.2.1 c.2.2)
          (applyStat_keeps_size m c.1 i c.2.1 c.2.2 s0 h)
  · intro t0 h
    induction calls generalizing m with
    | nil => exact h
    | cons c rest ih =>
        exact ih (applyStat m c.1 c.2.1 c.2.2)
          (applyStat_keeps_mtime m c.1 i c.2.1 c.2.2 t0 h)

/-- Witness for C10: a concrete model whose row 0 has size 5 and mtime 2;
an `apply_stat` call carrying 9/7 for that row leaves both resolved values
unchanged. -/
theorem resolved_attrs_write_once_witness :
    ((applyStatMany ⟨"/r", [⟨"a", "a", "/r/a", false, some 5, some 2, "File"⟩]⟩
        [(0, some 9, some 7)]).rows[0]?).map Row.size = some (some 5) ∧
    ((applyStatMany ⟨"/r", [⟨"a", "a", "/r/a", false, some 5, some 2, "File"⟩]⟩
        [(0, some 9, some 7)]).rows[0]?).map Row.mtime = some (some 2) :=
  ⟨(resolved_attrs_write_once ⟨"/r", [⟨"a", "a", "/r/a", false, some 5, some 2, "File"⟩]⟩
      [(0, some 9, some 7)] 0).1 5 rfl,
   (resolved_attrs_write_once ⟨"/r", [⟨"a", "a", "/r/a", false, some 5, some 2, "File"⟩]⟩
      [(0, some 9, some 7)] 0).2.1 2 rfl⟩

/-! ## C9: emission throttle -/

/-- **C9 counterexample**: a full second (well over 50 ms) has elapsed
since the last emission, the percentage is unchanged at 50, and
`_emit_progress` emits nothing — elapsed time alone does not suffice for
an update, because the `(now - ts) >= 0.05` disjunct sits under
`pct > last` (and integer percentages make that conjunction collapse to
`pct > last`). -/
theorem elapsed_time_does_not_emit :
    (1 : Rat) / 20 ≤ (1 : Rat) - (⟨100, 50, false, 50, 0⟩ : ProgState).lastTs ∧
    pctOf ⟨100, 50, false, 50, 0⟩ = 50 ∧
    emitProgress false 1 ⟨100, 50, false, 50, 0⟩ = (⟨100, 50, false, 50, 0⟩, Option.none) := by
  refine ⟨by norm_num, by decide, ?_⟩
  rfl

/-- **C9** (amended): after the first emission, an unforced progress
update is emitted exactly when the percentage reaches 100 or strictly
increased since the last emission; in particular it is emitted only when
it reaches 100% or increased by at least 1 point.  The 50 ms clause of the
source condition can never enable an emission on its own: integer
percentages make "increased" and "increased by at least 1" coincide, so
elapsed time alone never suffices. -/
theorem emit_throttle_after_first (s : ProgState) (now : Rat) (h : 0 ≤ s.lastPct) :
    ((emitProgress false now s).2 ≠ Option.none ↔
      (100 ≤ pctOf s ∨ s.lastPct < (pctOf s : Int))) ∧
    (∀ p, (emitProgress false now s).2 = some p →
      (p = 100 ∨ s.lastPct + 1 ≤ (p : Int)) ∧ p = pctOf s) := by
  have hpctle : pctOf s ≤ 100 := Nat.min_le_left _ _
  have key : emitProgress false now s =
      (if 100 ≤ pctOf s ∨ s.lastPct < (pctOf s : Int) then
        ({ s with lastPct := (pctOf s : Int), lastTs := now }, some (pctOf s))
      else (s, Option.none)) := by
    unfold emitProgress
    have hneg : ¬ s.lastPct < 0 := by omega
    by_cases h1 : 100 ≤ pctOf s
    · simp [h1]
    · by_cases h2 : s.lastPct < (pctOf s : Int)
      · have h3 : (1 : Int) ≤ (pctOf s : Int) - s.lastPct := by omega
        simp [h1, h2, h3, hneg]
      · simp [h1, h2, hneg]
  rw [key]
  split
  · rename_i hcond
    refine ⟨by simp [hcond], ?_⟩
    intro p hp
    simp only [Option.some.injEq] at hp
    subst hp
    refine ⟨?_, rfl⟩
    rcases hcond with h1 | h2
    · left; omega
    · right; omega
  · rename_i hcond
    exact ⟨by simp [hcond], by intro p hp; simp at hp⟩

/-- Witness for C9's amended theorem at a concrete state: 60% done against
a last emission of 50%, so an update is due. -/
theorem emit_throttle_after_first_witness :
    ((emitProgress false 0 ⟨100, 60, false, 50, 0⟩).2 ≠ Option.none ↔
      (100 ≤ pctOf ⟨100, 60, false, 50, 0⟩ ∨
        (⟨100, 60, false, 50, 0⟩ : ProgState).lastPct <
          (pctOf ⟨100, 60, false, 50, 0⟩ : Int))) :=
  (emit_throttle_after_first ⟨100, 60, false, 50, 0⟩ 0 (by decide)).1

/-! ## C4: unique_dest_path -/

/-- Distinct decimal digits render as distinct characters. -/
theorem digitCh_inj_lt : ∀ a < 10, ∀ b < 10, digitCh a = digitCh b → a = b := by decide

/-- A decimal rendering is never empty. -/
theorem decDigits_ne_nil (n : Nat) : decDigits n ≠ [] := by
  rw [decDigits]
  split <;> simp

/-- Decimal renderings are injective. -/
theorem decDigits_inj : ∀ a b : Nat, decDigits a = decDigits b → a = b := by
  intro a
  induction a using Nat.strong_induction_on with
  | _ a ih =>
    intro b h
    have hb : decDigits b =
        if _h : b < 10 then [digitCh b] else decDigits (b / 10) ++ [digitCh (b % 10)] := by
      rw [decDigits]
    rw [decDigits] at h
    rw [hb] at h
    split_ifs at h with h1 h2 h2
    · exact digitCh_inj_lt a h1 b h2 (List.cons.inj h).1
    · exfalso
      have hlen := congrArg List.length h
      have hpos : 0 < (decDigits (b / 10)).length :=
        List.length_pos.mpr (decDigits_ne_nil (b / 10))
      simp only [List.length_append, List.length_cons, List.length_nil] at hlen
      omega
    · exfalso
      have hlen := congrArg List.length h
      have hpos : 0 < (decDigits (a / 10)).length :=
        List.length_pos.mpr (decDigits_ne_nil (a / 10))
      simp only [List.length_append, List.length_cons, List.length_nil] at hlen
      omega
    · have h' := congrArg List.reverse h
      simp only [List.reverse_append, List.reverse_cons, List.reverse_nil,
        List.nil_append, List.singleton_append] at h'
      have hd := (List.cons.inj h').1
      have htl := (List.cons.inj h').2
      have hmod : a % 10 = b % 10 :=
        digitCh_inj_lt (a % 10) (Nat.mod_lt _ (by omega)) (b % 10) (Nat.mod_lt _ (by omega)) hd
      have hdiv : a / 10 = b / 10 :=
        ih (a / 10) (Nat.div_lt_self (by omega) (by omega)) (b / 10)
          (List.reverse_injective htl)
      omega

/-- `natStr` is injective. -/
theorem natStr_inj (a b : Nat) (h : natStr a = natStr b) : a = b :=
  decDigits_inj a b (congrArg String.data h)

/-- `natStr` never renders the empty string. -/
theorem natStr_len_pos (n : Nat) : 1 ≤ (natStr n).length := by
  have := List.length_pos.mpr (decDigits_ne_nil n)
  simpa [natStr, String.length] using this

/-- The candidate names tried by `unique_dest_path` for a fixed stem and
extension are pairwise distinct. -/
theorem candName_inj (base ext : String) :
    ∀ k j, candName base ext k = candName base ext j → k = j := by
  have h7 : (" - Copy" : String).length = 7 := rfl
  have h9 : (" - Copy (" : String).length = 9 := rfl
  have h1r : (")" : String).length = 1 := rfl
  intro k j h
  match k, j with
  | 0, 0 => rfl
  | 1, 1 => rfl
  | 0, 1 | 1, 0 =>
    exfalso
    have hl := congrArg String.length h
    simp only [candName, String.length_append] at hl
    omega
  | 0, j+2 | j+2, 0 =>
    exfalso
    have hl := congrArg String.length h
    have hp := natStr_len_pos (j + 2)
    simp only [candName, String.length_append] at hl
    omega
  | 1, j+2 | j+2, 1 =>
    exfalso
    have hl := congrArg String.length h
    have hp := natStr_len_pos (j + 2)
    simp only [candName, String.length_append] at hl
    omega
  | k+2, j+2 =>
    have hd := congrArg String.data h
    simp only [candName, String.data_append, List.append_assoc] at hd
    have h1 := List.append_cancel_left hd
    have h2 := List.append_cancel_left h1
    have h3 := List.append_cancel_right h2
    have := decDigits_inj (k + 2) (j + 2) h3
    omega

/-- Among the first `ex.length + 2` candidates, one is free: the
candidates are pairwise distinct, so they cannot all lie in `ex`. -/
theorem candFree_exists (ex : List String) (base ext : String) :
    ∃ k, k < ex.length + 2 ∧ candName base ext k ∉ ex := by
  by_contra hno
  push_neg at hno
  have hsub : (Finset.range (ex.length + 2)).image (candName base ext) ⊆ ex.toFinset := by
    intro x hx
    rw [Finset.mem_image] at hx
    obtain ⟨kk, hk, rfl⟩ := hx
    rw [List.mem_toFinset]
    exact hno kk (Finset.mem_range.mp hk)
  have hcard : ((Finset.range (ex.length + 2)).image (candName base ext)).card =
      ex.length + 2 := by
    rw [Finset.card_image_of_injOn, Finset.card_range]
    intro a _ b _ hab
    exact candName_inj base ext a b hab
  have hle1 := Finset.card_le_card hsub
  have hle2 := List.toFinset_card_le ex
  omega

/-- Correctness of the `unique_dest_path` loop: entered at step `j` with
every earlier candidate known to exist and some free candidate within the
fuel horizon, it returns the least free candidate at or after `j`. -/
theorem uniqueGo_correct (ex : List String) (base ext : String) : ∀ fuel j,
    (∃ k, j ≤ k ∧ k < j + fuel ∧ candName base ext k ∉ ex) →
    (∀ jj < j, candName base ext jj ∈ ex) →
    ∃ k, uniqueGo ex base ext (candName base ext j) (j + 1) fuel = candName base ext k ∧
      candName base ext k ∉ ex ∧ (∀ jj < k, candName base ext jj ∈ ex) := by
  intro fuel
  induction fuel with
  | zero =>
      intro j hex _
      obtain ⟨k, hk1, hk2, _⟩ := hex
      omega
  | succ fuel ih =>
      intro j hex hmin
      rw [uniqueGo]
      by_cases hc : candName base ext j ∈ ex
      · rw [if_pos hc]
        apply ih (j + 1)
        · obtain ⟨k, hk1, hk2, hk3⟩ := hex
          have hkj : k ≠ j := by
            intro he
            subst he
            exact hk3 hc
          exact ⟨k, by omega, by omega, hk3⟩
        · intro jj hjj
          rcases Nat.lt_succ_iff_lt_or_eq.mp hjj with h1 | h1
          · exact hmin jj h1
          · subst h1; exact hc
      · rw [if_neg hc]
        exact ⟨j, rfl, hc, hmin⟩

/-- `unique_dest_path` returns the least free candidate. -/
theorem uniqueDestName_spec (ex : List String) (base ext : String) :
    ∃ k, uniqueDestName ex base ext = candName base ext k ∧
      candName base ext k ∉ ex ∧ (∀ jj < k, candName base ext jj ∈ ex) := by
  have h0 : candName base ext 0 = base ++ ext := rfl
  have := uniqueGo_correct ex base ext (ex.length + 2) 0
    (by
      obtain ⟨k, hk1, hk2⟩ := candFree_exists ex base ext
      exact ⟨k, by omega, by omega, hk2⟩)
    (by omega)
  rw [h0] at this
  exact this

/-- Joining a fixed directory to distinct names yields distinct paths. -/
theorem joinPath_name_inj (d a b : String) (h : joinPath d a = joinPath d b) : a = b := by
  have hd := congrArg String.data h
  simp only [joinPath, String.data_append, List.append_assoc] at hd
  have h1 := List.append_cancel_left (List.append_cancel_left hd)
  cases a
  cases b
  exact congrArg String.mk (by simpa using h1)

/-- **C4**: `unique_dest_path` returns a path that does not exist at call
time: the returned name is outside the destination directory's contents
`ex`, hence the joined path is not among the existing joined paths.  It is
the first candidate, in the order original name, `" - Copy"`,
`" - Copy (2)"`, `" - Copy (3)"`, ..., that does not exist (every earlier
candidate is in `ex`).  And calling again after the result has been
created (`ex ++ [first result]`) chooses a strictly later candidate, so
repeated calls produce strictly increasing suffixes. -/
theorem unique_dest_path_spec (ex : List String) (base ext dstDir : String) :
    uniqueDestName ex base ext ∉ ex ∧
    joinPath dstDir (uniqueDestName ex base ext) ∉ ex.map (joinPath dstDir) ∧
    (∃ k k',
      uniqueDestName ex base ext = candName base ext k ∧
      (∀ j < k, candName base ext j ∈ ex) ∧
      uniqueDestName (ex ++ [uniqueDestName ex base ext]) base ext = candName base ext k' ∧
      (∀ j < k', candName base ext j ∈ ex ++ [uniqueDestName ex base ext]) ∧
      uniqueDestName (ex ++ [uniqueDestName ex base ext]) base ext ∉
        ex ++ [uniqueDestName ex base ext] ∧
      k < k') := by
  obtain ⟨k, hk, hkfree, hkmin⟩ := uniqueDestName_spec ex base ext
  obtain ⟨k', hk', hk'free, hk'min⟩ :=
    uniqueDestName_spec (ex ++ [uniqueDestName ex base ext]) base ext
  refine ⟨hk ▸ hkfree, ?_, k, k', hk, hkmin, hk', hk'min, hk' ▸ hk'free, ?_⟩
  · intro hmem
    rw [List.mem_map] at hmem
    obtain ⟨x, hx, hxeq⟩ := hmem
    have := joinPath_name_inj dstDir x (uniqueDestName ex base ext) hxeq
    subst this
    exact (hk ▸ hkfree) hx
  · rcases Nat.lt_trichotomy k k' with h | h | h
    · exact h
    · exfalso
      apply hk'free
      rw [← h, ← hk]
      simp
    · exfalso
      apply hk'free
      have hmem : candName base ext k' ∈ ex := hkmin k' h
      simp [hmem]

/-! ## C1: progress monotonicity -/

/-- Percentages never exceed 100. -/
theorem pctOf_le (s : ProgState) : pctOf s ≤ 100 := min_le_left _ _

/-- Percentages are monotone in `_done`. -/
theorem pctOf_done_mono (s : ProgState) (d : Nat) (h : s.done ≤ d) :
    pctOf s ≤ pctOf { s with done := d } := by
  unfold pctOf
  exact min_le_min (le_refl 100) (Nat.div_le_div_right (Nat.mul_le_mul_right _ h))

/-- A full total yields exactly 100%. -/
theorem pctOf_full (s : ProgState) (h1 : 1 ≤ s.total) (h2 : s.total ≤ s.done) :
    pctOf s = 100 := by
  unfold pctOf
  rw [max_eq_right h1]
  have h100 : 100 ≤ s.done * 100 / s.total := by
    calc 100 = s.total * 100 / s.total := by
          rw [Nat.mul_div_cancel_left 100 (by omega)]
      _ ≤ s.done * 100 / s.total := Nat.div_le_div_right (Nat.mul_le_mul_right _ h2)
  exact min_eq_left h100

/-- `pcts` distributes over append. -/
theorem pcts_append (a b : List Event) : pcts (a ++ b) = pcts a ++ pcts b := by
  simp [pcts]

/-- Chains concatenate through their last element. -/
theorem chainFrom_append (a : Int) (ps qs : List Nat) (h1 : chainFrom a ps)
    (h2 : chainFrom (lastOf a ps) qs) : chainFrom a (ps ++ qs) := by
  induction ps generalizing a with
  | nil => simpa [lastOf] using h2
  | cons p ps ih =>
      rw [chainFrom] at h1
      exact ⟨h1.1, ih _ h1.2 (by simpa [lastOf] using h2)⟩

/-- `lastOf` distributes over append. -/
theorem lastOf_append (a : Int) (ps qs : List Nat) :
    lastOf a (ps ++ qs) = lastOf (lastOf a ps) qs := by
  induction ps generalizing a with
  | nil => simp [lastOf]
  | cons p ps ih => simp [lastOf, ih]

/-- A chain is a non-decreasing list. -/
theorem chainFrom_chain (a : Int) (ps : List Nat) (h : chainFrom a ps) :
    List.Chain' (· ≤ ·) ps := by
  induction ps generalizing a with
  | nil => simp
  | cons p ps ih =>
      cases ps with
      | nil => simp
      | cons q ps' =>
          rw [chainFrom] at h
          have h2 := h.2
          rw [chainFrom] at h2
          exact List.Chain'.cons (by exact_mod_cast h2.1) (ih p h.2)

/-- `MonoSpec` is reflexive on empty traces. -/
theorem monoSpec_refl (m : MState) : MonoSpec m m [] := by
  unfold MonoSpec
  exact ⟨fun h => ⟨h, trivial, rfl⟩, by simp [pcts], le_refl _, rfl, rfl⟩

/-- Progress-free events satisfy `MonoSpec` on an unchanged state. -/
theorem monoSpec_noprog (m : MState) (evs : List Event) (h : pcts evs = []) :
    MonoSpec m m evs := by
  unfold MonoSpec
  rw [h]
  exact ⟨fun hi => ⟨hi, trivial, rfl⟩, by simp, le_refl _, rfl, rfl⟩

/-- `MonoSpec` composes. -/
theorem monoSpec_comp {m m1 m2 : MState} {e1 e2 : List Event}
    (h1 : MonoSpec m m1 e1) (h2 : MonoSpec m1 m2 e2) : MonoSpec m m2 (e1 ++ e2) := by
  unfold MonoSpec at *
  obtain ⟨hA1, hB1, hD1, hT1, hC1⟩ := h1
  obtain ⟨hA2, hB2, hD2, hT2, hC2⟩ := h2
  refine ⟨?_, ?_, le_trans hD1 hD2, hT2.trans hT1, hC2.trans hC1⟩
  · intro hinv
    obtain ⟨hi1, hch1, hl1⟩ := hA1 hinv
    obtain ⟨hi2, hch2, hl2⟩ := hA2 hi1
    rw [pcts_append]
    refine ⟨hi2, chainFrom_append _ _ _ hch1 (by rw [hl1] at hch2; exact hch2), ?_⟩
    rw [lastOf_append, ← hl1]
    exact hl2
  · intro p hp
    rw [pcts_append, List.mem_append] at hp
    rcases hp with h | h
    · exact hB1 p h
    · exact hB2 p h

/-- Structural facts about one `_emit_progress` call: byte counters and
the mode are untouched; a non-emission leaves the state unchanged; an
emission carries the current percentage and records it. -/
theorem emitProgress_spec (force : Bool) (now : Rat) (s : ProgState) :
    ((emitProgress force now s).1.done = s.done ∧
     (emitProgress force now s).1.total = s.total ∧
     (emitProgress force now s).1.countProgress = s.countProgress) ∧
    ((emitProgress force now s).2 = Option.none → (emitProgress force now s).1 = s) ∧
    (∀ p, (emitProgress force now s).2 = some p →
      p = pctOf s ∧ (emitProgress force now s).1.lastPct = (p : Int)) := by
  unfold emitProgress
  split
  · refine ⟨⟨rfl, rfl, rfl⟩, by simp, ?_⟩
    intro p hp
    simp only [Option.some.injEq] at hp
    subst hp
    exact ⟨rfl, rfl⟩
  · exact ⟨⟨rfl, rfl, rfl⟩, fun _ => rfl, by simp⟩

/-- A forced `_emit_progress` always emits the current percentage. -/
theorem emitProgress_force (now : Rat) (s : ProgState) :
    emitProgress true now s =
      ({ s with lastPct := (pctOf s : Int), lastTs := now }, some (pctOf s)) := by
  unfold emitProgress
  simp

/-- One `_emit_progress` call satisfies `MonoSpec`. -/
theorem runEmit_spec (clock : Nat → Rat) (force : Bool) (m : MState) :
    MonoSpec m (runEmit clock force m).1 (runEmit clock force m).2 := by
  have hs := emitProgress_spec force (clock m.k) m.prog
  unfold runEmit
  rcases he : emitProgress force (clock m.k) m.prog with ⟨p1, op⟩
  rw [he] at hs
  cases op with
  | none =>
      have hp1 : p1 = m.prog := hs.2.1 rfl
      subst hp1
      unfold MonoSpec
      exact ⟨fun h => ⟨h, trivial, rfl⟩, by simp [pcts], le_refl _, rfl, rfl⟩
  | some p =>
      obtain ⟨hp, hl⟩ := hs.2.2 p rfl
      obtain ⟨hdn, htt, hcp⟩ := hs.1
      unfold MonoSpec
      refine ⟨?_, ?_, le_of_eq hdn.symm, htt, hcp⟩
      · intro hinv
        refine ⟨?_, ?_, ?_⟩
        · unfold StInv
          have hpc : pctOf p1 = pctOf m.prog := by
            unfold pctOf
            rw [hdn, htt]
          rw [hl, hp, hpc]
        · exact ⟨by rw [hp]; exact hinv, trivial⟩
        · simp only [pcts, List.filterMap_cons, List.filterMap_nil]
          simpa [lastOf] using hl
      · intro q hq
        simp only [pcts, List.filterMap_cons, List.filterMap_nil] at hq
        simp only [List.mem_singleton] at hq
        subst hq
        rw [hp]
        exact pctOf_le _

/-- Increasing `_done` preserves the throttle invariant. -/
theorem monoSpec_bump (m : MState) (d : Nat) (h : m.prog.done ≤ d) :
    MonoSpec m { m with prog := { m.prog with done := d } } [] := by
  unfold MonoSpec
  refine ⟨?_, by simp [pcts], h, rfl, rfl⟩
  intro hinv
  refine ⟨?_, trivial, rfl⟩
  unfold StInv at *
  calc m.prog.lastPct ≤ (pctOf m.prog : Int) := hinv
    _ ≤ _ := by exact_mod_cast pctOf_done_mono m.prog d h

/-- Every act satisfies `MonoSpec`. -/
theorem execAct_spec (clock : Nat → Rat) (a : Act) (m : MState) :
    MonoSpec m (execAct clock a m).1 (execAct clock a m).2 := by
  cases a with
  | tickBytes d =>
      by_cases hc : m.prog.countProgress = true
      · simp only [execAct, hc, if_true]
        exact monoSpec_refl m
      · have hb : m.prog.countProgress = false := by
          revert hc; cases m.prog.countProgress <;> simp
        have h := monoSpec_comp
          (monoSpec_bump m (m.prog.done + d.toNat) (Nat.le_add_right _ _))
          (runEmit_spec clock false { m with prog := { m.prog with done := m.prog.done + d.toNat } })
        simpa [execAct, hb] using h
  | tickUnits u =>
      by_cases hc : m.prog.countProgress = true
      · have h := monoSpec_comp
          (monoSpec_bump m (m.prog.done + u.toNat) (Nat.le_add_right _ _))
          (runEmit_spec clock false { m with prog := { m.prog with done := m.prog.done + u.toNat } })
        simpa [execAct, hc] using h
      · have hb : m.prog.countProgress = false := by
          revert hc; cases m.prog.countProgress <;> simp
        simp only [execAct, hb, Bool.not_false, if_true]
        exact monoSpec_refl m
  | skipSrc cached fresh =>
      by_cases hc : m.prog.countProgress = true
      · simp only [execAct, hc, if_true]
        exact monoSpec_refl m
      · have hb : m.prog.countProgress = false := by
          revert hc; cases m.prog.countProgress <;> simp
        have h := monoSpec_comp
          (monoSpec_bump m (m.prog.done + (cached.getD fresh).toNat) (Nat.le_add_right _ _))
          (runEmit_spec clock false
            { m with prog := { m.prog with done := m.prog.done + (cached.getD fresh).toNat } })
        simpa [execAct, hb] using h
  | srcDone =>
      by_cases hc : m.prog.countProgress = true
      · have h := monoSpec_comp
          (monoSpec_bump m (m.prog.done + 1) (Nat.le_add_right _ _))
          (runEmit_spec clock false { m with prog := { m.prog with done := m.prog.done + 1 } })
        simpa [execAct, hc] using h
      · have hb : m.prog.countProgress = false := by
          revert hc; cases m.prog.countProgress <;> simp
        simp only [execAct, hb, if_false]
        exact runEmit_spec clock false m
  | statusA s => exact monoSpec_noprog m _ (by simp [pcts, execAct])
  | effA e => exact monoSpec_noprog m _ (by simp [pcts, execAct])

/-- Every act list satisfies `MonoSpec`. -/
theorem execActs_spec (clock : Nat → Rat) : ∀ (acts : List Act) (m : MState),
    MonoSpec m (execActs clock acts m).1 (execActs clock acts m).2 := by
  intro acts
  induction acts with
  | nil => intro m; exact monoSpec_refl m
  | cons a rest ih =>
      intro m
      rw [execActs]
      exact monoSpec_comp (execAct_spec clock a m) (ih (execAct clock a m).1)

/-- The whole source loop satisfies `MonoSpec` on its event flatten. -/
theorem runLoop_spec (op : OpKind) (dstDir : String) (canc : Nat → Bool)
    (clock : Nat → Rat) : ∀ (items : List ItemCtx) (i : Nat) (m : MState),
    MonoSpec m (runLoop op dstDir canc clock items i m).2.1
      (((runLoop op dstDir canc clock items i m).1.map Prod.snd).flatten) := by
  intro items
  induction items with
  | nil => intro i m; simpa using monoSpec_refl m
  | cons it rest ih =>
      intro i m
      rw [runLoop]
      split
      · simpa using monoSpec_refl m
      · dsimp only
        split
        · simpa using execActs_spec clock (itemProgram op dstDir it).1 m
        · have h1 := execActs_spec clock (itemProgram op dstDir it).1 m
          have h2 := ih (i + 1) (execActs clock (itemProgram op dstDir it).1 m).1
          simpa using monoSpec_comp h1 h2

/-- The copy branch never raises. -/
theorem copyBranch_outcome (d : String) (it : ItemCtx) (dst : String) :
    (copyBranch d it dst).2 = .conflictSkip ∨ (copyBranch d it dst).2 = .performed := by
  unfold copyBranch
  split <;> split <;> simp

/-- The move branch never raises. -/
theorem moveBranch_outcome (d : String) (it : ItemCtx) (dst : String) :
    (moveBranch d it dst).2 = .conflictSkip ∨ (moveBranch d it dst).2 = .performed := by
  unfold moveBranch
  dsimp only
  split
  · simp
  · split
    · simp
    · split <;> simp

/-- An item whose I/O does not raise cannot yield a raised outcome. -/
theorem itemProgram_not_raised (op : OpKind) (dstDir : String) (it : ItemCtx)
    (h : it.raiseMsg = Option.none) :
    ∀ msg, (itemProgram op dstDir it).2 ≠ .raised msg := by
  intro msg
  have hcopy : ∀ dst, (copyBranch dstDir it dst).2 ≠ ItemOutcome.raised msg := by
    intro dst
    rcases copyBranch_outcome dstDir it dst with ho | ho <;> simp [ho]
  have hmove : ∀ dst, (moveBranch dstDir it dst).2 ≠ ItemOutcome.raised msg := by
    intro dst
    rcases moveBranch_outcome dstDir it dst with ho | ho <;> simp [ho]
  unfold itemProgram
  dsimp only
  rw [h]
  split_ifs
  all_goals try (cases op with
    | copy => exact hcopy _
    | move => exact hmove _)
  all_goals simp

/-- With no raising item the loop never aborts. -/
theorem runLoop_no_abort (op : OpKind) (dstDir : String) (canc : Nat → Bool)
    (clock : Nat → Rat) : ∀ (items : List ItemCtx) (i : Nat) (m : MState),
    (∀ it ∈ items, it.raiseMsg = Option.none) →
    (runLoop op dstDir canc clock items i m).2.2.2 = Option.none := by
  intro items
  induction items with
  | nil => intro i m _; rfl
  | cons it rest ih =>
      intro i m hr
      rw [runLoop]
      split
      · rfl
      · dsimp only
        split
        · rename_i msg heq
          exact absurd heq (itemProgram_not_raised op dstDir it (hr it (by simp)) msg)
        · exact ih (i + 1) _ (fun x hx => hr x (by simp [hx]))

/-- `_calc_total` leaves `_done = 0`, the throttle reset at `-1`, and a
total of at least 1, whichever exit it takes. -/
theorem calcTotalGo_facts (deadline : Rat) (n : Nat) : ∀ (srcs : List ScanSrc)
    (scanned total : Nat) (s : ProgState), s.done = 0 → s.lastPct = -1 →
    (calcTotalGo deadline n srcs scanned total s).done = 0 ∧
    (calcTotalGo deadline n srcs scanned total s).lastPct = -1 ∧
    1 ≤ (calcTotalGo deadline n srcs scanned total s).total := by
  intro srcs
  induction srcs with
  | nil =>
      intro scanned total s h1 h2
      exact ⟨h1, rfl, Nat.le_max_left _ _⟩
  | cons src rest ih =>
      intro scanned total s h1 h2
      cases src with
      | dirSrc files =>
          rw [calcTotalGo]
          split
          · exact ⟨rfl, h2, Nat.le_max_left _ _⟩
          · exact ih _ _ s h1 h2
      | fileSrc size now =>
          rw [calcTotalGo]
          split
          · exact ⟨rfl, h2, Nat.le_max_left _ _⟩
          · exact ih _ _ s h1 h2

/-- An abort-free, cancellation-clear run reduces to its components. -/
theorem workerRun_eq (op : OpKind) (dstDir : String) (deadline : Rat) (scans : List ScanSrc)
    (items : List ItemCtx) (canc : Nat → Bool) (clock : Nat → Rat)
    (hab : (runLoop op dstDir canc clock items 0
      { prog := calcTotal deadline scans initProgState, k := 0 }).2.2.2 = Option.none)
    (hcanc : canc (runLoop op dstDir canc clock items 0
      { prog := calcTotal deadline scans initProgState, k := 0 }).2.2.1 = false) :
    workerRun op dstDir deadline scans items canc clock =
      { outs := (runLoop op dstDir canc clock items 0
          { prog := calcTotal deadline scans initProgState, k := 0 }).1,
        events := Event.status
            (if (calcTotal deadline scans initProgState).countProgress then
              "Preparing " ++ op.str ++ " (quick estimate) ..."
            else "Preparing " ++ op.str ++ " ...") ::
          ((runLoop op dstDir canc clock items 0
            { prog := calcTotal deadline scans initProgState, k := 0 }).1.map Prod.snd).flatten ++
          (runEmit clock true (bumpFull (runLoop op dstDir canc clock items 0
            { prog := calcTotal deadline scans initProgState, k := 0 }).2.1)).2 ++
          [Event.finishedOk],
        final := (runEmit clock true (bumpFull (runLoop op dstDir canc clock items 0
          { prog := calcTotal deadline scans initProgState, k := 0 }).2.1)).1 } := by
  unfold workerRun
  dsimp only
  rw [hab]
  dsimp only
  rw [hcanc]
  rfl

/-- **C1**: for every transfer request that `FileOpWorker.run` completes
successfully without cancellation (no item raises, the cancel flag never
reads true), the emitted percentages are non-decreasing, all lie in
0..100, and the last one is exactly 100 (followed by the `finished_ok`
signal); the choice between byte-based and count-based progress is the one
`_calc_total` made before the first item was processed, and it never
changes through the run. -/
theorem progress_monotone_to_100 (op : OpKind) (dstDir : String) (deadline : Rat)
    (scans : List ScanSrc) (items : List ItemCtx) (clock : Nat → Rat)
    (hraise : ∀ it ∈ items, it.raiseMsg = Option.none) :
    List.Chain' (· ≤ ·)
      (pcts (workerRun op dstDir deadline scans items (fun _ => false) clock).events) ∧
    (∀ p ∈ pcts (workerRun op dstDir deadline scans items (fun _ => false) clock).events,
      p ≤ 100) ∧
    (pcts (workerRun op dstDir deadline scans items (fun _ => false) clock).events).getLast? =
      some 100 ∧
    (workerRun op dstDir deadline scans items (fun _ => false) clock).events.getLast? =
      some Event.finishedOk ∧
    (workerRun op dstDir deadline scans items (fun _ => false) clock).final.prog.countProgress =
      (calcTotal deadline scans initProgState).countProgress := by
  have hab : (runLoop op dstDir (fun _ => false) clock items 0
      { prog := calcTotal deadline scans initProgState, k := 0 }).2.2.2 = Option.none :=
    runLoop_no_abort op dstDir (fun _ => false) clock items 0 _ hraise
  have hres := workerRun_eq op dstDir deadline scans items (fun _ => false) clock hab rfl
  rw [hres]
  set r := runLoop op dstDir (fun _ => false) clock items 0
    { prog := calcTotal deadline scans initProgState, k := 0 } with hr
  set s0 := calcTotal deadline scans initProgState with hs0
  have hinit := calcTotalGo_facts deadline scans.length scans 0 0 initProgState rfl rfl
  have hl0 : s0.lastPct = -1 := hinit.2.1
  have ht0 : 1 ≤ s0.total := hinit.2.2
  have hloop := runLoop_spec op dstDir (fun _ => false) clock items 0 { prog := s0, k := 0 }
  rw [← hr] at hloop
  unfold MonoSpec at hloop
  obtain ⟨hA, hB, _hD, hT, hC⟩ := hloop
  have hstinv0 : StInv ({ prog := s0, k := 0 } : MState).prog := by
    unfold StInv
    show s0.lastPct ≤ _
    rw [hl0]
    exact le_trans (by omega) (Int.ofNat_nonneg (pctOf s0))
  obtain ⟨hi1, hch1, hl1⟩ := hA hstinv0
  have hT' : r.2.1.prog.total = s0.total := hT
  have hfull : pctOf (bumpFull r.2.1).prog = 100 := by
    apply pctOf_full
    · show 1 ≤ r.2.1.prog.total
      rw [hT']
      exact ht0
    · exact Nat.le_max_right _ _
  have hemit : runEmit clock true (bumpFull r.2.1) =
      (MState.mk { (bumpFull r.2.1).prog with lastPct := (100 : Int), lastTs := clock (bumpFull r.2.1).k } ((bumpFull r.2.1).k + 1), [Event.progress 100]) := by
    unfold runEmit
    rw [emitProgress_force]
    rw [hfull]
    rfl
  rw [hemit]
  have hpcts : pcts (Event.status
      (if s0.countProgress then "Preparing " ++ op.str ++ " (quick estimate) ..."
        else "Preparing " ++ op.str ++ " ...") ::
      (r.1.map Prod.snd).flatten ++ [Event.progress 100] ++ [Event.finishedOk]) =
      pcts ((r.1.map Prod.snd).flatten) ++ [100] := by
    simp [pcts]
  have hl1' : lastOf (-1 : Int) (pcts ((r.1.map Prod.snd).flatten)) = r.2.1.prog.lastPct := by
    rw [hl1]
    show lastOf (-1 : Int) _ = lastOf (({ prog := s0, k := 0 } : MState).prog.lastPct) _
    rw [show ({ prog := s0, k := 0 } : MState).prog.lastPct = (-1 : Int) from hl0]
  have hlast_le : r.2.1.prog.lastPct ≤ (100 : Int) := by
    unfold StInv at hi1
    have := pctOf_le r.2.1.prog
    omega
  have hchain : chainFrom (-1) (pcts ((r.1.map Prod.snd).flatten) ++ [100]) := by
    apply chainFrom_append
    · have heq : ({ prog := s0, k := 0 } : MState).prog.lastPct = (-1 : Int) := hl0
      rw [← heq]
      exact hch1
    · rw [hl1']
      exact ⟨hlast_le, trivial⟩
  refine ⟨?_, ?_, ?_, ?_, ?_⟩
  · show List.Chain' (· ≤ ·) (pcts _)
    rw [hpcts]
    exact chainFrom_chain _ _ hchain
  · intro p hp
    rw [show (pcts _) = pcts ((r.1.map Prod.snd).flatten) ++ [100] from hpcts,
      List.mem_append] at hp
    rcases hp with h | h
    · exact hB p h
    · simp at h
      omega
  · show (pcts _).getLast? = some 100
    rw [hpcts]
    exact List.getLast?_concat _
  · show (Event.status _ :: (r.1.map Prod.snd).flatten ++ [Event.progress 100] ++
      [Event.finishedOk]).getLast? = some Event.finishedOk
    rw [show Event.status (if s0.countProgress then
          "Preparing " ++ op.str ++ " (quick estimate) ..."
        else "Preparing " ++ op.str ++ " ...") ::
        (r.1.map Prod.snd).flatten ++ [Event.progress 100] ++ [Event.finishedOk] =
        (Event.status (if s0.countProgress then
          "Preparing " ++ op.str ++ " (quick estimate) ..."
        else "Preparing " ++ op.str ++ " ...") ::
        ((r.1.map Prod.snd).flatten ++ [Event.progress 100])) ++ [Event.finishedOk] by simp]
    exact List.getLast?_concat _
  · show (bumpFull r.2.1).prog.countProgress = s0.countProgress
    have h1 : (bumpFull r.2.1).prog.countProgress = r.2.1.prog.countProgress := rfl
    rw [h1]
    exact hC

/-- Witness for C1: a concrete one-item copy (the item's source vanished
before the run) still ends its emitted percentages at exactly 100 and
finishes with the success signal. -/
theorem progress_monotone_to_100_witness :
    (pcts (workerRun .copy "/d" 0 []
      [⟨"/s/x", "x", false, false, false, false, false, Option.none, false, "", "",
        Option.none, 0, [], [], false, false, Option.none⟩]
      (fun _ => false) (fun _ => 0)).events).getLast? = some 100 ∧
    (workerRun .copy "/d" 0 []
      [⟨"/s/x", "x", false, false, false, false, false, Option.none, false, "", "",
        Option.none, 0, [], [], false, false, Option.none⟩]
      (fun _ => false) (fun _ => 0)).events.getLast? = some Event.finishedOk :=
  ⟨(progress_monotone_to_100 .copy "/d" 0 []
      [⟨"/s/x", "x", false, false, false, false, false, Option.none, false, "", "",
        Option.none, 0, [], [], false, false, Option.none⟩]
      (fun _ => 0) (by decide)).2.2.1,
   (progress_monotone_to_100 .copy "/d" 0 []
      [⟨"/s/x", "x", false, false, false, false, false, Option.none, false, "", "",
        Option.none, 0, [], [], false, false, Option.none⟩]
      (fun _ => 0) (by decide)).2.2.2.1⟩

/-! ## C7: overwrite removal semantics -/

/-- A source item that passes every pre-flight check reaches its
copy/move branch with the plain joined destination. -/
theorem itemProgram_dispatch (op : OpKind) (dstDir : String) (it : ItemCtx)
    (hex : it.exists_ = true) (hsame : it.sameAsDst = false)
    (hnn : ¬(it.isRealDirSrc = true ∧ it.nested = true))
    (hraise : it.raiseMsg = Option.none) :
    itemProgram op dstDir it =
      (match op with
       | .copy => copyBranch dstDir it (joinPath dstDir it.base)
       | .move => moveBranch dstDir it (joinPath dstDir it.base)) := by
  unfold itemProgram
  dsimp only
  rw [hraise]
  simp [hex, hsame, hnn]

/-- The only filesystem effect of `_copy_dir_recursive` is the tree copy. -/
theorem effsOf_copyTreeActs (src dst : String) (tc : List (List Nat)) :
    effsOf (copyTreeActs src dst tc) = [.copyTree src dst] := by
  have h : List.filterMap (fun a => match a with | Act.effA e => some e | _ => Option.none)
      ((tc.map (fun ch => ch.map (fun c => Act.tickBytes (c : Int)) ++
        [Act.tickUnits 1])).flatten) = [] := by
    rw [List.filterMap_eq_nil_iff]
    intro a ha
    rw [List.mem_flatten] at ha
    obtain ⟨l, hl, hal⟩ := ha
    rw [List.mem_map] at hl
    obtain ⟨ch, _, rfl⟩ := hl
    rw [List.mem_append] at hal
    rcases hal with h1 | h1
    · rw [List.mem_map] at h1
      obtain ⟨c, _, rfl⟩ := h1
      rfl
    · simp only [List.mem_singleton] at h1
      subst h1
      rfl
  unfold copyTreeActs effsOf
  simp only [List.filterMap_cons, h]

/-- The filesystem effects of `_copy_file`: parent creation then the
truncating write. -/
theorem effsOf_copyFileActs (src dst : String) (chunks : List Nat) :
    effsOf (copyFileActs src dst chunks) = [.mkdirsParent dst, .copyFile src dst] := by
  unfold copyFileActs effsOf
  simp only [List.filterMap_cons, List.filterMap_append, List.filterMap_map]
  simp

/-- **C7 counterexample**: a file source copied over an existing
destination with resolution Overwrite performs no removal at all — its
effect trace is exactly the parent `makedirs` followed by the truncating
write itself, contradicting "removes the existing destination before
writing ... for both Copy and Move". -/
theorem copy_file_overwrite_no_removal :
    (⟨"/s/f.txt", "f.txt", true, false, false, false, true, some .overwrite, false, "", "",
      Option.none, 0, [10], [], false, false, Option.none⟩ : ItemCtx).dstExists = true ∧
    (⟨"/s/f.txt", "f.txt", true, false, false, false, true, some .overwrite, false, "", "",
      Option.none, 0, [10], [], false, false, Option.none⟩ : ItemCtx).action =
        some CAction.overwrite ∧
    effsOf (itemProgram .copy "/d"
      ⟨"/s/f.txt", "f.txt", true, false, false, false, true, some .overwrite, false, "", "",
        Option.none, 0, [10], [], false, false, Option.none⟩).1 =
      [.mkdirsParent (joinPath "/d" "f.txt"), .copyFile "/s/f.txt" (joinPath "/d" "f.txt")] := by
  refine ⟨rfl, rfl, ?_⟩
  rfl

/-- **C7** (amended): removal-before-write holds for Move and for
directory-source Copy, but not for file-source Copy.  For a conflicting
item with resolution Overwrite that passes pre-flight: a Move first
removes the existing destination (tree removal when the destination is a
real directory, single-file removal otherwise — the first filesystem
effect, before any write, on both the rename path and the
copy-then-delete fallback); a Copy of a real directory source first
removes the destination tree; a Copy of a file source performs no removal
— the destination is truncated and overwritten by the write itself.
(Removal failures are tolerated silently by the source's `try/except`
around each removal.) -/
theorem overwrite_removal_semantics (dstDir : String) (it : ItemCtx)
    (hex : it.exists_ = true) (hsame : it.sameAsDst = false)
    (hnn : ¬(it.isRealDirSrc = true ∧ it.nested = true))
    (hraise : it.raiseMsg = Option.none)
    (hconf : it.dstExists = true) (hover : it.action = some CAction.overwrite) :
    (effsOf (itemProgram .move dstDir it).1).head? =
      some (if it.dstIsRealDir = true then Eff.rmtree (joinPath dstDir it.base)
        else Eff.removeFile (joinPath dstDir it.base)) ∧
    (it.isRealDirSrc = true →
      effsOf (itemProgram .copy dstDir it).1 =
        [.rmtree (joinPath dstDir it.base), .mkdirsDir (joinPath dstDir it.base),
         .copyTree it.src (joinPath dstDir it.base)]) ∧
    (it.isRealDirSrc = false →
      effsOf (itemProgram .copy dstDir it).1 =
        [.mkdirsParent (joinPath dstDir it.base),
         .copyFile it.src (joinPath dstDir it.base)]) := by
  have hdisp := itemProgram_dispatch
  refine ⟨?_, ?_, ?_⟩
  · rw [itemProgram_dispatch .move dstDir it hex hsame hnn hraise]
    unfold moveBranch
    dsimp only
    have hskip : ¬(it.dstExists = true ∧ it.action = some CAction.skip) := by
      simp [hover]
    have hkb : (it.action = some CAction.keepBoth) = False := by
      simp [hover]
    rw [if_neg hskip]
    simp only [hover, hconf]
    have hkb2 : ¬(some CAction.overwrite = some CAction.keepBoth) := by simp
    simp only [hkb2, and_false, if_false, if_neg hkb2]
    by_cases hmr : it.moveRaises = true
    · simp only [hmr]
      by_cases hds : it.isRealDirSrc = true
      · simp only [hds, if_true]
        by_cases hdd : it.dstIsRealDir = true <;>
          simp [hdd, effsOf, effsOf_copyTreeActs, List.filterMap_append]
      · have hds' : it.isRealDirSrc = false := by
          revert hds; cases it.isRealDirSrc <;> simp
        simp only [hds', Bool.false_eq_true, if_false]
        by_cases hdd : it.dstIsRealDir = true <;>
          simp [hdd, effsOf, effsOf_copyFileActs, List.filterMap_append]
    · have hmr' : it.moveRaises = false := by
        revert hmr; cases it.moveRaises <;> simp
      simp only [hmr', Bool.not_false, if_true]
      by_cases hdd : it.dstIsRealDir = true <;>
        simp [hdd, effsOf, List.filterMap_append]
  · intro hdir
    rw [itemProgram_dispatch .copy dstDir it hex hsame hnn hraise]
    unfold copyBranch
    simp only [hdir, if_true, hconf, hover]
    simp [effsOf, effsOf_copyTreeActs, List.filterMap_append]
    exact effsOf_copyTreeActs it.src (joinPath dstDir it.base) it.treeChunks
  · intro hfile
    rw [itemProgram_dispatch .copy dstDir it hex hsame hnn hraise]
    unfold copyBranch
    simp only [hfile, Bool.false_eq_true, if_false, hconf, hover]
    simp [effsOf_copyFileActs, effsOf, List.filterMap_append]
    exact effsOf_copyFileActs it.src (joinPath dstDir it.base) it.chunks

/-- Witness for C7's amended theorem: a concrete move of a file over an
existing file destination with Overwrite starts with the single-file
removal. -/
theorem overwrite_removal_semantics_witness :
    (effsOf (itemProgram .move "/d"
      ⟨"/s/f.txt", "f.txt", true, false, false, false, true, some .overwrite, false, "", "",
        some 5, 0, [10], [], false, false, Option.none⟩).1).head? =
      some (Eff.removeFile (joinPath "/d" "f.txt")) :=
  (overwrite_removal_semantics "/d"
    ⟨"/s/f.txt", "f.txt", true, false, false, false, true, some .overwrite, false, "", "",
      some 5, 0, [10], [], false, false, Option.none⟩
    rfl rfl (by decide) rfl rfl rfl).1

/-! ## C8: cancellation outcome -/

/-- Emission produces only progress events. -/
theorem runEmit_no_terminal (clock : Nat → Rat) (force : Bool) (m : MState) :
    Event.finishedOk ∉ (runEmit clock force m).2 := by
  unfold runEmit
  rcases he : emitProgress force (clock m.k) m.prog with ⟨p, op⟩
  cases op <;> simp

/-- Emission produces the empty trace or a single progress event. -/
theorem runEmit_events (clock : Nat → Rat) (force : Bool) (m : MState) :
    (runEmit clock force m).2 = [] ∨ ∃ p, (runEmit clock force m).2 = [Event.progress p] := by
  unfold runEmit
  rcases he : emitProgress force (clock m.k) m.prog with ⟨p1, op⟩
  cases op
  · left; rfl
  · right; exact ⟨_, rfl⟩

/-- Each act produces an empty trace, one status, one effect, or one
progress event. -/
theorem execAct_events (clock : Nat → Rat) (a : Act) (m : MState) :
    (execAct clock a m).2 = [] ∨ (∃ s, (execAct clock a m).2 = [Event.status s]) ∨
    (∃ e, (execAct clock a m).2 = [Event.fx e]) ∨
    (∃ p, (execAct clock a m).2 = [Event.progress p]) := by
  have hsplit : ∀ (x : MState × List Event),
      (x.2 = [] ∨ (∃ p, x.2 = [Event.progress p])) →
      (x.2 = [] ∨ (∃ s, x.2 = [Event.status s]) ∨ (∃ e, x.2 = [Event.fx e]) ∨
        (∃ p, x.2 = [Event.progress p])) := by
    rintro x (h | h)
    · exact Or.inl h
    · exact Or.inr (Or.inr (Or.inr h))
  cases a with
  | tickBytes d =>
      by_cases hc : m.prog.countProgress = true
      · left; simp [execAct, hc]
      · have hb : m.prog.countProgress = false := by
          revert hc; cases m.prog.countProgress <;> simp
        apply hsplit
        simp only [execAct, hb, Bool.false_eq_true, if_false]
        exact runEmit_events clock false _
  | tickUnits u =>
      by_cases hc : m.prog.countProgress = true
      · apply hsplit
        simp only [execAct, hc, Bool.not_true, if_true]
        exact runEmit_events clock false _
      · have hb : m.prog.countProgress = false := by
          revert hc; cases m.prog.countProgress <;> simp
        left; simp [execAct, hb]
  | skipSrc c f =>
      by_cases hc : m.prog.countProgress = true
      · left; simp [execAct, hc]
      · have hb : m.prog.countProgress = false := by
          revert hc; cases m.prog.countProgress <;> simp
        apply hsplit
        simp only [execAct, hb, Bool.false_eq_true, if_false]
        exact runEmit_events clock false _
  | srcDone =>
      by_cases hc : m.prog.countProgress = true
      · apply hsplit
        simp only [execAct, hc, if_true]
        exact runEmit_events clock false _
      · have hb : m.prog.countProgress = false := by
          revert hc; cases m.prog.countProgress <;> simp
        apply hsplit
        simp only [execAct, hb, Bool.false_eq_true, if_false]
        exact runEmit_events clock false _
  | statusA s => right; left; exact ⟨s, rfl⟩
  | effA e => right; right; left; exact ⟨e, rfl⟩

/-- No act emits the success signal. -/
theorem execAct_no_finished (clock : Nat → Rat) (a : Act) (m : MState) :
    Event.finishedOk ∉ (execAct clock a m).2 := by
  rcases execAct_events clock a m with h | ⟨s, h⟩ | ⟨e, h⟩ | ⟨p, h⟩ <;> simp [h]

/-- No act list emits the success signal. -/
theorem execActs_no_finished (clock : Nat → Rat) : ∀ (acts : List Act) (m : MState),
    Event.finishedOk ∉ (execActs clock acts m).2 := by
  intro acts
  induction acts with
  | nil => intro m; simp [execActs]
  | cons a rest ih =>
      intro m
      rw [execActs]
      intro hmem
      rw [List.mem_append] at hmem
      rcases hmem with h | h
      · exact execAct_no_finished clock a m h
      · exact ih _ h

/-- The source loop never emits the success signal. -/
theorem runLoop_no_finished (op : OpKind) (dstDir : String) (canc : Nat → Bool)
    (clock : Nat → Rat) : ∀ (items : List ItemCtx) (i : Nat) (m : MState),
    Event.finishedOk ∉ (((runLoop op dstDir canc clock items i m).1.map Prod.snd).flatten) := by
  intro items
  induction items with
  | nil => intro i m; simp [runLoop]
  | cons it rest ih =>
      intro i m
      rw [runLoop]
      split
      · simp
      · dsimp only
        split
        · simpa using execActs_no_finished clock (itemProgram op dstDir it).1 m
        · intro hmem
          simp only [List.map_cons, List.flatten_cons, List.mem_append] at hmem
          rcases hmem with h | h
          · exact execActs_no_finished clock (itemProgram op dstDir it).1 m h
          · exact ih (i + 1) _ h

/-- After an abort-free loop whose items include a cancellation-true poll,
the final `_cancel` read is true (monotone oracle). -/
theorem runLoop_cancel_read (op : OpKind) (dstDir : String) (canc : Nat → Bool)
    (clock : Nat → Rat) (hm : CancMono canc) : ∀ (items : List ItemCtx) (i : Nat) (m : MState),
    (∀ it ∈ items, it.raiseMsg = Option.none) →
    (∃ j, j ≤ i + items.length ∧ canc j = true) →
    canc (runLoop op dstDir canc clock items i m).2.2.1 = true := by
  intro items
  induction items with
  | nil =>
      intro i m _ hj
      obtain ⟨j, hj1, hj2⟩ := hj
      exact hm j i (by simpa using hj1) hj2
  | cons it rest ih =>
      intro i m hr hj
      obtain ⟨j, hj1, hj2⟩ := hj
      rw [runLoop]
      by_cases hci : canc i = true
      · rw [if_pos hci]
        exact hci
      · rw [if_neg hci]
        dsimp only
        have hij : i < j := by
          by_contra hle
          push_neg at hle
          exact hci (hm j i hle hj2)
        split
        · rename_i msg heq
          exact absurd heq
            (itemProgram_not_raised op dstDir it (hr it (by simp)) msg)
        · refine ih (i + 1) _ (fun x hx => hr x (by simp [hx])) ⟨j, ?_, hj2⟩
          simp only [List.length_cons] at hj1
          omega

/-- A cancelled, abort-free run reduces to its components. -/
theorem workerRun_cancel_eq (op : OpKind) (dstDir : String) (deadline : Rat)
    (scans : List ScanSrc) (items : List ItemCtx) (canc : Nat → Bool) (clock : Nat → Rat)
    (hab : (runLoop op dstDir canc clock items 0
      { prog := calcTotal deadline scans initProgState, k := 0 }).2.2.2 = Option.none)
    (hcanc : canc (runLoop op dstDir canc clock items 0
      { prog := calcTotal deadline scans initProgState, k := 0 }).2.2.1 = true) :
    workerRun op dstDir deadline scans items canc clock =
      { outs := (runLoop op dstDir canc clock items 0
          { prog := calcTotal deadline scans initProgState, k := 0 }).1,
        events := Event.status
            (if (calcTotal deadline scans initProgState).countProgress then
              "Preparing " ++ op.str ++ " (quick estimate) ..."
            else "Preparing " ++ op.str ++ " ...") ::
          ((runLoop op dstDir canc clock items 0
            { prog := calcTotal deadline scans initProgState, k := 0 }).1.map Prod.snd).flatten ++
          [Event.errorE "Operation cancelled."],
        final := (runLoop op dstDir canc clock items 0
          { prog := calcTotal deadline scans initProgState, k := 0 }).2.1 } := by
  unfold workerRun
  dsimp only
  rw [hab]
  dsimp only
  rw [hcanc]
  rfl

/-- **C8 counterexample**: a run cancelled before its first item and an
uncancelled run whose first item raises an exception with message
`"Operation cancelled."` produce identical observable event traces — the
error signal with the sentinel text — and the pane presents that failure
as a cancellation status flash, not an error dialog.  The cancelled
outcome is therefore not first-class: it is distinguishable from failure
only by the sentinel string. -/
theorem cancelled_failure_indistinguishable :
    (workerRun .copy "/d" 0 [] [] (fun _ => true) (fun _ => 0)).events =
      (workerRun .copy "/d" 0 []
        [⟨"/s/x", "x", true, false, false, false, false, Option.none, false, "", "",
          Option.none, 0, [], [], false, false, some "Operation cancelled."⟩]
        (fun _ => false) (fun _ => 0)).events ∧
    (workerRun .copy "/d" 0 [] [] (fun _ => true) (fun _ => 0)).events =
      [Event.status "Preparing copy ...", Event.errorE "Operation cancelled."] ∧
    paneOnError .copy "Operation cancelled." = .statusFlash "Copy cancelled" := by
  refine ⟨rfl, rfl, rfl⟩

/-- **C8** (amended): a cancelled transfer that has not already failed
reports a terminal outcome on the error signal carrying the sentinel
message `"Operation cancelled."`; the success signal is never emitted, so
the outcome is distinct from success, and the pane's error handler maps
exactly the sentinel to a status flash — cancellation is not presented to
the user as an error, while every other message produces the critical
error dialog.  (Distinctness from failure holds only up to the sentinel
string: it is carried on the same error signal.) -/
theorem cancelled_outcome (op : OpKind) (dstDir : String) (deadline : Rat)
    (scans : List ScanSrc) (items : List ItemCtx) (canc : Nat → Bool) (clock : Nat → Rat)
    (hm : CancMono canc) (hraise : ∀ it ∈ items, it.raiseMsg = Option.none)
    (hc : ∃ j, j ≤ items.length ∧ canc j = true) :
    (workerRun op dstDir deadline scans items canc clock).events.getLast? =
      some (Event.errorE "Operation cancelled.") ∧
    Event.finishedOk ∉ (workerRun op dstDir deadline scans items canc clock).events ∧
    paneOnError op "Operation cancelled." = .statusFlash (op.title ++ " cancelled") ∧
    (∀ msg, msg ≠ "Operation cancelled." →
      paneOnError op msg = .criticalDialog (op.title ++ " failed") msg) := by
  have hab := runLoop_no_abort op dstDir canc clock items 0
    { prog := calcTotal deadline scans initProgState, k := 0 } hraise
  have hread := runLoop_cancel_read op dstDir canc clock hm items 0
    { prog := calcTotal deadline scans initProgState, k := 0 } hraise
    (by obtain ⟨j, h1, h2⟩ := hc; exact ⟨j, by omega, h2⟩)
  have hres := workerRun_cancel_eq op dstDir deadline scans items canc clock hab hread
  rw [hres]
  refine ⟨?_, ?_, ?_, ?_⟩
  · show (Event.status _ :: _ ++ [Event.errorE "Operation cancelled."]).getLast? =
      some (Event.errorE "Operation cancelled.")
    rw [show Event.status (if (calcTotal deadline scans initProgState).countProgress then
          "Preparing " ++ op.str ++ " (quick estimate) ..."
        else "Preparing " ++ op.str ++ " ...") ::
        ((runLoop op dstDir canc clock items 0
          { prog := calcTotal deadline scans initProgState, k := 0 }).1.map Prod.snd).flatten ++
        [Event.errorE "Operation cancelled."] =
        (Event.status (if (calcTotal deadline scans initProgState).countProgress then
          "Preparing " ++ op.str ++ " (quick estimate) ..."
        else "Preparing " ++ op.str ++ " ...") ::
        ((runLoop op dstDir canc clock items 0
          { prog := calcTotal deadline scans initProgState, k := 0 }).1.map Prod.snd).flatten) ++
        [Event.errorE "Operation cancelled."] by simp]
    exact List.getLast?_concat _
  · intro hmem
    simp only [List.mem_cons, List.mem_append, List.mem_singleton] at hmem
    rcases hmem with (h | h) | h | h
    · exact Event.noConfusion h
    · exact runLoop_no_finished op dstDir canc clock items 0 _ h
    · exact Event.noConfusion h
    · exact absurd h (List.not_mem_nil _)
  · unfold paneOnError
    rw [if_pos rfl]
  · intro msg hmsg
    unfold paneOnError
    rw [if_neg hmsg]

/-- Witness for C8's amended theorem: a concrete empty transfer cancelled
from the start ends on the sentinel error signal. -/
theorem cancelled_outcome_witness :
    (workerRun .copy "/d" 0 [] [] (fun _ => true) (fun _ => 0)).events.getLast? =
      some (Event.errorE "Operation cancelled.") :=
  (cancelled_outcome .copy "/d" 0 [] [] (fun _ => true) (fun _ => 0)
    (fun _ _ _ h => h) (by simp) ⟨0, by omega, rfl⟩).1

/-! ## C2: nested-destination rejection -/

/-- A real-directory source whose destination is nested inside it takes
the rejection branch: a distinct status warning, the skip progress credit,
and the processed tick — and nothing else. -/
theorem itemProgram_nested (op : OpKind) (dstDir : String) (it : ItemCtx)
    (hex : it.exists_ = true) (hdir : it.isRealDirSrc = true) (hnest : it.nested = true)
    (hns : ¬(it.sameAsDst = true ∧ op = OpKind.move)) :
    itemProgram op dstDir it =
      ([.statusA ("Skipped nested destination: " ++ it.base),
        .skipSrc it.sizeCache it.sizeFresh, .srcDone], .nestedBlocked) := by
  unfold itemProgram
  dsimp only
  simp [hex, hdir, hnest, hns]

/-- `_skip_source_progress` produces at most one progress event. -/
theorem execAct_skipSrc_events (clock : Nat → Rat) (c : Option Int) (f : Int) (m : MState) :
    (execAct clock (Act.skipSrc c f) m).2 = [] ∨
    ∃ p, (execAct clock (Act.skipSrc c f) m).2 = [Event.progress p] := by
  by_cases hc : m.prog.countProgress = true
  · left; simp [execAct, hc]
  · have hb : m.prog.countProgress = false := by
      revert hc; cases m.prog.countProgress <;> simp
    simp only [execAct, hb, Bool.false_eq_true, if_false]
    exact runEmit_events clock false _

/-- `_emit_source_done` produces at most one progress event. -/
theorem execAct_srcDone_events (clock : Nat → Rat) (m : MState) :
    (execAct clock Act.srcDone m).2 = [] ∨
    ∃ p, (execAct clock Act.srcDone m).2 = [Event.progress p] := by
  by_cases hc : m.prog.countProgress = true
  · simp only [execAct, hc, if_true]
    exact runEmit_events clock false _
  · have hb : m.prog.countProgress = false := by
      revert hc; cases m.prog.countProgress <;> simp
    simp only [execAct, hb, Bool.false_eq_true, if_false]
    exact runEmit_events clock false _

/-- Executing the nested-rejection acts from any machine state yields the
distinct warning first, then only progress events — in particular, no
filesystem effect at all. -/
theorem execActs_nested_events (clock : Nat → Rat) (m : MState) (c : Option Int)
    (f : Int) (sMsg : String) :
    fxOf (execActs clock [Act.statusA sMsg, Act.skipSrc c f, Act.srcDone] m).2 = [] ∧
    (execActs clock [Act.statusA sMsg, Act.skipSrc c f, Act.srcDone] m).2.head? =
      some (Event.status sMsg) := by
  have h0 : execAct clock (Act.statusA sMsg) m = (m, [Event.status sMsg]) := rfl
  have hunf : (execActs clock [Act.statusA sMsg, Act.skipSrc c f, Act.srcDone] m).2 =
      [Event.status sMsg] ++ ((execAct clock (Act.skipSrc c f) m).2 ++
        ((execAct clock Act.srcDone (execAct clock (Act.skipSrc c f) m).1).2 ++ [])) := by
    simp only [execActs]
    rw [h0]
  rw [hunf]
  rcases execAct_skipSrc_events clock c f m with h2 | ⟨p2, h2⟩ <;>
    rcases execAct_srcDone_events clock (execAct clock (Act.skipSrc c f) m).1 with h3 | ⟨p3, h3⟩ <;>
      simp [h2, h3, fxOf]

/-- Unrolling one non-cancelled, non-raising step of the source loop. -/
theorem runLoop_cons_eq (op : OpKind) (dstDir : String) (canc : Nat → Bool)
    (clock : Nat → Rat) (it : ItemCtx) (rest : List ItemCtx) (i : Nat) (m : MState)
    (hc : canc i = false) (hnr : ∀ msg, (itemProgram op dstDir it).2 ≠ .raised msg) :
    runLoop op dstDir canc clock (it :: rest) i m =
      (((itemProgram op dstDir it).2,
        (execActs clock (itemProgram op dstDir it).1 m).2) ::
          (runLoop op dstDir canc clock rest (i + 1)
            (execActs clock (itemProgram op dstDir it).1 m).1).1,
        (runLoop op dstDir canc clock rest (i + 1)
          (execActs clock (itemProgram op dstDir it).1 m).1).2) := by
  rw [runLoop, hc]
  simp only [Bool.false_eq_true, if_false]

/-- With no cancellation and no raising item, every source is processed:
one outcome per item, and the j-th outcome is the j-th item's program
outcome with its executed events. -/
theorem runLoop_processes (op : OpKind) (dstDir : String) (clock : Nat → Rat) :
    ∀ (items : List ItemCtx) (i : Nat) (m : MState),
    (∀ x ∈ items, x.raiseMsg = Option.none) →
    ((runLoop op dstDir (fun _ => false) clock items i m).1.length = items.length ∧
     ∀ (j : Nat) (it : ItemCtx), items[j]? = some it →
       ∃ mj, (runLoop op dstDir (fun _ => false) clock items i m).1[j]? =
         some ((itemProgram op dstDir it).2, (execActs clock (itemProgram op dstDir it).1 mj).2)) := by
  intro items
  induction items with
  | nil =>
      intro i m _
      refine ⟨rfl, ?_⟩
      intro j it hj
      simp at hj
  | cons it0 rest ih =>
      intro i m hr
      rw [runLoop_cons_eq op dstDir (fun _ => false) clock it0 rest i m rfl
        (itemProgram_not_raised op dstDir it0 (hr it0 (by simp)))]
      obtain ⟨ihlen, ihget⟩ := ih (i + 1) (execActs clock (itemProgram op dstDir it0).1 m).1
        (fun x hx => hr x (by simp [hx]))
      refine ⟨by simp [ihlen], ?_⟩
      intro j it hj
      cases j with
      | zero =>
          simp only [List.getElem?_cons_zero, Option.some.injEq] at hj
          subst hj
          exact ⟨m, by simp⟩
      | succ j' =>
          simp only [List.getElem?_cons_succ] at hj ⊢
          exact ihget j' it hj

/-- Everything `_start_bg_op` keeps in `valid_srcs` came from the input. -/
theorem startBgFilter_valid_subset (op : OpKind) : ∀ (srcs : List PaneSrc) (x : PaneSrc),
    x ∈ (startBgFilter op srcs).1 → x ∈ srcs := by
  intro srcs
  induction srcs with
  | nil => intro x hx; simp [startBgFilter] at hx
  | cons t rest ih =>
      intro x hx
      simp only [startBgFilter] at hx
      split_ifs at hx with h1 h2 h3
      · exact List.mem_cons_of_mem t (ih x hx)
      · cases op with
        | copy =>
            rcases List.mem_cons.mp hx with rfl | hx'
            · exact List.mem_cons_self _ _
            · exact List.mem_cons_of_mem t (ih x hx')
        | move => exact List.mem_cons_of_mem t (ih x hx)
      · exact List.mem_cons_of_mem t (ih x hx)
      · rcases List.mem_cons.mp hx with rfl | hx'
        · exact List.mem_cons_self _ _
        · exact List.mem_cons_of_mem t (ih x hx')

/-- A real-directory source with a nested destination is collected into
`blocked_nested` and excluded from `valid_srcs`. -/
theorem startBgFilter_nested (op : OpKind) : ∀ (srcs : List PaneSrc) (s : PaneSrc),
    s ∈ srcs → s.path ≠ "" → s.exists_ = true → s.sameAsDst = false →
    s.isRealDir = true → s.nested = true →
    s ∈ (startBgFilter op srcs).2.2.1 ∧ s ∉ (startBgFilter op srcs).1 := by
  intro srcs
  induction srcs with
  | nil => intro s hs; simp at hs
  | cons t rest ih =>
      intro s hs hp he hss hsd hsn
      have hsvalid : s ∉ (startBgFilter op rest).1 := by
        intro hmem
        have hsrest : s ∈ rest := startBgFilter_valid_subset op rest s hmem
        exact (ih s hsrest hp he hss hsd hsn).2 hmem
      simp only [startBgFilter]
      by_cases hts : t = s
      · subst hts
        rw [if_neg (by simp [hp, he]), if_neg (by simp [hss]), if_pos (by simp [hsd, hsn])]
        refine ⟨List.mem_cons_self _ _, hsvalid⟩
      · have hmem : s ∈ rest := by
          rcases List.mem_cons.mp hs with rfl | h
          · exact absurd rfl hts
          · exact h
        obtain ⟨hbl, hvl⟩ := ih s hmem hp he hss hsd hsn
        split_ifs with h1 h2 h3
        · exact ⟨hbl, hvl⟩
        · cases op with
          | copy =>
              refine ⟨hbl, ?_⟩
              intro hx
              rcases List.mem_cons.mp hx with rfl | hx'
              · exact hts rfl
              · exact hvl hx'
          | move => exact ⟨hbl, hvl⟩
        · exact ⟨List.mem_cons_of_mem t hbl, hvl⟩
        · refine ⟨hbl, ?_⟩
          intro hx
          rcases List.mem_cons.mp hx with rfl | hx'
          · exact hts rfl
          · exact hvl hx'

/-- **C2**: a source item that is a real directory (not a symlink) whose
prospective destination `dstDir/basename(src)` is nested inside it is
rejected before any I/O on it: in `FileOpWorker.run` the item produces no
filesystem effect at all, is reported with the distinct
`"Skipped nested destination: ..."` status warning (not a hard failure),
ends with outcome `nestedBlocked` (it counts as processed, taking its
`_emit_source_done` tick), and the loop still processes every other
source (one outcome per item).  At the pane layer, `_start_bg_op`
collects such a source into `blocked_nested`, keeps it out of
`valid_srcs`, and pops the blocking warning dialog. -/
theorem nested_destination_blocked (op : OpKind) (dstDir : String) (clock : Nat → Rat)
    (items : List ItemCtx) (m0 : MState) (j : Nat) (it : ItemCtx)
    (hj : items[j]? = some it)
    (hraise : ∀ x ∈ items, x.raiseMsg = Option.none)
    (hex : it.exists_ = true) (hdir : it.isRealDirSrc = true) (hnest : it.nested = true)
    (hns : ¬(it.sameAsDst = true ∧ op = OpKind.move))
    (srcs : List PaneSrc) (s : PaneSrc) (hmem : s ∈ srcs) (hsp : s.path ≠ "")
    (hse : s.exists_ = true) (hss : s.sameAsDst = false) (hsd : s.isRealDir = true)
    (hsn : s.nested = true) :
    ((runLoop op dstDir (fun _ => false) clock items 0 m0).1.length = items.length ∧
     ∃ evs, (runLoop op dstDir (fun _ => false) clock items 0 m0).1[j]? =
         some (ItemOutcome.nestedBlocked, evs) ∧
       fxOf evs = [] ∧
       evs.head? = some (Event.status ("Skipped nested destination: " ++ it.base))) ∧
    (s ∈ (startBgFilter op srcs).2.2.1 ∧ s ∉ (startBgFilter op srcs).1 ∧
      startBgWarns op srcs = true) := by
  obtain ⟨hlen, hget⟩ := runLoop_processes op dstDir clock items 0 m0 hraise
  obtain ⟨hbl, hvl⟩ := startBgFilter_nested op srcs s hmem hsp hse hss hsd hsn
  refine ⟨⟨hlen, ?_⟩, hbl, hvl, ?_⟩
  · obtain ⟨mj, hj'⟩ := hget j it hj
    rw [itemProgram_nested op dstDir it hex hdir hnest hns] at hj'
    refine ⟨_, hj', ?_, ?_⟩
    · exact (execActs_nested_events clock mj it.sizeCache it.sizeFresh _).1
    · exact (execActs_nested_events clock mj it.sizeCache it.sizeFresh _).2
  · unfold startBgWarns
    simp only [ne_eq, decide_not]
    have : (startBgFilter op srcs).2.2.1 ≠ [] := List.ne_nil_of_mem hbl
    simp [this]

/-- Witness for C2: a concrete two-item copy where the first item is a
directory being copied into its own subtree; it is blocked with the
warning and the second item is still processed, and the pane filter
blocks the corresponding source and warns. -/
theorem nested_destination_blocked_witness :
    ((runLoop .copy "/d/sub" (fun _ => false) (fun _ => 0)
        [⟨"/d", "d", true, false, true, true, false, Option.none, false, "", "",
          Option.none, 0, [], [], false, false, Option.none⟩,
         ⟨"/s/x", "x", false, false, false, false, false, Option.none, false, "", "",
          Option.none, 0, [], [], false, false, Option.none⟩] 0
        { prog := initProgState, k := 0 }).1.length = 2) ∧
    startBgWarns .copy [⟨"/d", true, false, true, true⟩] = true :=
  ⟨(nested_destination_blocked .copy "/d/sub" (fun _ => 0)
      [⟨"/d", "d", true, false, true, true, false, Option.none, false, "", "",
        Option.none, 0, [], [], false, false, Option.none⟩,
       ⟨"/s/x", "x", false, false, false, false, false, Option.none, false, "", "",
        Option.none, 0, [], [], false, false, Option.none⟩]
      { prog := initProgState, k := 0 } 0
      ⟨"/d", "d", true, false, true, true, false, Option.none, false, "", "",
        Option.none, 0, [], [], false, false, Option.none⟩
      rfl (by decide) rfl rfl rfl (by decide)
      [⟨"/d", true, false, true, true⟩] ⟨"/d", true, false, true, true⟩
      (by simp) (by decide) rfl rfl rfl rfl).1.1,
   (nested_destination_blocked .copy "/d/sub" (fun _ => 0)
      [⟨"/d", "d", true, false, true, true, false, Option.none, false, "", "",
        Option.none, 0, [], [], false, false, Option.none⟩,
       ⟨"/s/x", "x", false, false, false, false, false, Option.none, false, "", "",
        Option.none, 0, [], [], false, false, Option.none⟩]
      { prog := initProgState, k := 0 } 0
      ⟨"/d", "d", true, false, true, true, false, Option.none, false, "", "",
        Option.none, 0, [], [], false, false, Option.none⟩
      rfl (by decide) rfl rfl rfl (by decide)
      [⟨"/d", true, false, true, true⟩] ⟨"/d", true, false, true, true⟩
      (by simp) (by decide) rfl rfl rfl rfl).2.2.2⟩


/-! ## C3: SearchWorker result capping and truncation -/

/-- Sum of batch lengths distributes over event-list append. -/
theorem sResultsCount_append (a b : List SEvent) :
    sResultsCount (a ++ b) = sResultsCount a + sResultsCount b := by
  simp [sResultsCount]

/-- `SInv` at a stationary step. -/
theorem SInv_refl (base : String) (cap : Nat) (st : SState) : SInv base cap st st :=
  ⟨fun h => h, le_rfl, rfl, ⟨[], by simp, by simp⟩, fun h => h, fun _ h => Or.inl h⟩

/-- `SInv` composes over a step that only touches the poll counter. -/
theorem SInv_poll (base : String) (cap : Nat) (st stm R : SState)
    (hn : stm.nMatches = st.nMatches) (he : stm.events = st.events)
    (hb : stm.batch = st.batch) (ht : stm.truncated = st.truncated)
    (ih : SInv base cap stm R) : SInv base cap st R := by
  obtain ⟨i1, i2, i3, i4, i5, i6⟩ := ih
  rw [hn] at i1 i2 i3 i6
  rw [he, hb] at i3
  rw [he] at i4
  rw [ht] at i5 i6
  exact ⟨i1, i2, i3, i4, i5, i6⟩

/-- `SInv` composes over the truncation step (lines 1699-1702): the cap
was reached, the flags are set, and nothing else changes. -/
theorem SInv_trunc (base : String) (cap : Nat) (st stm R : SState)
    (hcap : cap ≤ st.nMatches)
    (hn : stm.nMatches = st.nMatches) (he : stm.events = st.events)
    (hb : stm.batch = st.batch) (ht : stm.truncated = true)
    (ih : SInv base cap stm R) : SInv base cap st R := by
  obtain ⟨i1, i2, i3, i4, i5, i6⟩ := ih
  rw [hn] at i1 i2 i3
  rw [he, hb] at i3
  rw [he] at i4
  refine ⟨i1, i2, i3, i4, fun _ => i5 ht, fun hle _ => Or.inr ?_⟩
  exact le_antisymm (i1 hle) (le_trans hcap i2)

/-- `SInv` composes over appending one result below the cap
(lines 1703-1715): the count goes up by one, the new result lands in the
pending batch or in a flushed batch event, and the flags are unchanged. -/
theorem SInv_append (base : String) (cap : Nat) (st stm R : SState)
    (hlt : st.nMatches < cap)
    (hn : stm.nMatches = st.nMatches + 1)
    (hc : sResultsCount stm.events + stm.batch.length =
      sResultsCount st.events + st.batch.length + 1)
    (hev : ∃ sfx, stm.events = st.events ++ sfx ∧
      ∀ e ∈ sfx, ∃ rs, e = SEvent.batch base rs)
    (ht : stm.truncated = st.truncated)
    (ih : SInv base cap stm R) : SInv base cap st R := by
  obtain ⟨i1, i2, i3, i4, i5, i6⟩ := ih
  obtain ⟨sfx1, he1, hb1⟩ := hev
  obtain ⟨sfx2, he2, hb2⟩ := i4
  refine ⟨fun h => i1 (by omega), by omega, by omega, ?_, ?_, ?_⟩
  · refine ⟨sfx1 ++ sfx2, by rw [he2, he1, List.append_assoc], ?_⟩
    intro e hme
    rcases List.mem_append.mp hme with hme | hme
    · exact hb1 e hme
    · exact hb2 e hme
  · intro h
    exact i5 (ht.trans h)
  · intro hle hRt
    rcases i6 (by omega) hRt with hL | hR
    · exact Or.inl (ht ▸ hL)
    · exact Or.inr hR

/-- The invariant holds across any run of the traversal loop, for every
cancellation oracle. -/
theorem searchGo_inv (tests : List (String → Bool)) (cap : Nat) (ext : Nat → Bool) (base : String) :
    ∀ (entries : List FsNode) (p rl : String) (stack : List Frame) (st : SState),
    SInv base cap st (searchGo tests cap ext base entries p rl stack st) := by
  intro entries p rl stack st
  induction entries, p, rl, stack, st using searchGo.induct tests cap ext base
  case case1 p rl st =>
    rw [searchGo]
    exact SInv_refl base cap st
  case case2 p rl st f rest h =>
    rw [searchGo]
    simp only [h, if_true]
    refine SInv_poll base cap st _ _ ?_ ?_ ?_ ?_ (SInv_refl base cap _) <;> rfl
  case case3 p rl st f rest st1 h ih =>
    rw [searchGo]
    simp only [h, if_false, Bool.false_eq_true]
    refine SInv_poll base cap st _ _ ?_ ?_ ?_ ?_ ih <;> rfl
  case case4 e rest p rl stack st st1 h ih =>
    cases e <;>
      (rw [searchGo]
       simp only [h, if_true]
       refine SInv_poll base cap st _ _ ?_ ?_ ?_ ?_ ih <;> rfl)
  case case5 rest p rl stack st st1 h name hm hcap ih =>
    rw [searchGo]
    simp only [h, if_false, Bool.false_eq_true, hm, if_true, hcap]
    refine SInv_trunc base cap st _ _ hcap ?_ ?_ ?_ ?_ ih <;> rfl
  case case6 rest p rl stack st st1 h name hm hcap res st2 st3 ih =>
    rw [searchGo]
    simp only [h, if_false, Bool.false_eq_true, hm, if_true, hcap]
    have hst3 : st3 = if 600 ≤ (st.batch ++ [res]).length then
        { st with
            nMatches := st.nMatches + 1
            poll := st.poll + 1
            batch := []
            events := st.events ++ [SEvent.batch base (st.batch ++ [res])] }
      else
        { st with
            nMatches := st.nMatches + 1
            poll := st.poll + 1
            batch := st.batch ++ [res] } := rfl
    rw [hst3] at ih
    refine SInv_append base cap st _ _ (Nat.not_le.mp hcap) ?_ ?_ ?_ ?_ ih
    · split <;> rfl
    · split <;> simp [sResultsCount_append, sResultsCount] <;> omega
    · split
      · exact ⟨_, rfl, by simp⟩
      · exact ⟨[], by simp, by simp⟩
    · split <;> rfl
  case case7 rest p rl stack st st1 h name hm ih =>
    rw [searchGo]
    simp only [h, if_false, Bool.false_eq_true, hm]
    refine SInv_poll base cap st _ _ ?_ ?_ ?_ ?_ ih <;> rfl
  case case8 rest p rl stack st st1 h name sym rd ch hm hcap ih =>
    rw [searchGo]
    simp only [h, if_false, Bool.false_eq_true, hm, if_true, hcap]
    refine SInv_trunc base cap st _ _ hcap ?_ ?_ ?_ ?_ ih <;> rfl
  case case9 rest p rl stack st st1 h name sym rd ch pushed hm hcap res st2 st3 ih =>
    rw [searchGo]
    simp only [h, if_false, Bool.false_eq_true, hm, if_true, hcap]
    have hst3 : st3 = if 600 ≤ (st.batch ++ [res]).length then
        { st with
            nMatches := st.nMatches + 1
            poll := st.poll + 1
            batch := []
            events := st.events ++ [SEvent.batch base (st.batch ++ [res])] }
      else
        { st with
            nMatches := st.nMatches + 1
            poll := st.poll + 1
            batch := st.batch ++ [res] } := rfl
    have hpu : pushed = if sym = true then stack else
        ({ path := joinPath p name, rel := childRel rl name, readable := rd,
           children := ch } : Frame) :: stack := rfl
    rw [hst3, hpu] at ih
    refine SInv_append base cap st _ _ (Nat.not_le.mp hcap) ?_ ?_ ?_ ?_ ih
    · split <;> rfl
    · split <;> simp [sResultsCount_append, sResultsCount] <;> omega
    · split
      · exact ⟨_, rfl, by simp⟩
      · exact ⟨[], by simp, by simp⟩
    · split <;> rfl
  case case10 rest p rl stack st st1 h name sym rd ch pushed hm ih =>
    rw [searchGo]
    simp only [h, if_false, Bool.false_eq_true, hm]
    refine SInv_poll base cap st _ _ ?_ ?_ ?_ ?_ ih <;> rfl

/-- Reachable matches of a cons cell of roots. -/
theorem reachList_cons (tests : List (String → Bool)) (c : FsNode) (rest : List FsNode) :
    reachMatchesList tests (c :: rest) =
      reachMatches tests c + reachMatchesList tests rest := rfl

/-- Pending stack reach of a cons cell of frames. -/
theorem stackReach_cons (tests : List (String → Bool)) (f : Frame) (rest : List Frame) :
    stackReach tests (f :: rest) =
      (if f.readable = true then reachMatchesList tests f.children else 0) +
        stackReach tests rest := rfl

/-- With no caller cancellation and clear flags, the traversal either
trips the cap (setting `_truncated`) or collects exactly every reachable
match of the pending entries and of the pending stack. -/
theorem searchGo_complete (tests : List (String → Bool)) (cap : Nat) (base : String) :
    ∀ (entries : List FsNode) (p rl : String) (stack : List Frame) (st : SState),
    st.cancelI = false → st.truncated = false →
    (searchGo tests cap (fun _ => false) base entries p rl stack st).truncated = true ∨
    ((searchGo tests cap (fun _ => false) base entries p rl stack st).truncated = false ∧
     (searchGo tests cap (fun _ => false) base entries p rl stack st).nMatches =
       st.nMatches + reachMatchesList tests entries + stackReach tests stack) := by
  intro entries p rl stack st
  induction entries, p, rl, stack, st using searchGo.induct tests cap (fun _ => false) base
  case case1 p rl st =>
    intro hc ht
    rw [searchGo]
    exact Or.inr ⟨ht, by simp [reachMatchesList, stackReach]⟩
  case case2 p rl st f rest h =>
    intro hc ht
    simp [hc] at h
  case case3 p rl st f rest st1 h ih =>
    intro hc ht
    rw [show st1 = { st with poll := st.poll + 1 } from rfl] at ih
    simp only [dite_eq_ite] at ih
    rw [searchGo]
    simp only [h, if_false, Bool.false_eq_true]
    rcases ih hc ht with hL | ⟨hT, hN⟩
    · exact Or.inl hL
    · refine Or.inr ⟨hT, ?_⟩
      rw [hN]
      by_cases hr : f.readable = true <;>
        simp [hr, reachMatchesList, stackReach_cons, List.foldr_nil] <;> omega
  case case4 e rest p rl stack st st1 h ih =>
    intro hc ht
    simp [hc] at h
  case case5 rest p rl stack st st1 h name hm hcap ih =>
    intro hc ht
    rw [searchGo]
    simp only [h, if_false, Bool.false_eq_true, hm, if_true, hcap]
    exact Or.inl ((searchGo_inv tests cap (fun _ => false) base [] p rl stack _).2.2.2.2.1 rfl)
  case case6 rest p rl stack st st1 h name hm hcap res st2 st3 ih =>
    intro hc ht
    rw [searchGo]
    simp only [h, if_false, Bool.false_eq_true, hm, if_true, hcap]
    have hst3 : st3 = if 600 ≤ (st.batch ++ [res]).length then
        { st with
            nMatches := st.nMatches + 1
            poll := st.poll + 1
            batch := []
            events := st.events ++ [SEvent.batch base (st.batch ++ [res])] }
      else
        { st with
            nMatches := st.nMatches + 1
            poll := st.poll + 1
            batch := st.batch ++ [res] } := rfl
    rw [hst3] at ih
    rcases ih (by split <;> exact hc) (by split <;> exact ht) with hL | ⟨hT, hN⟩
    · exact Or.inl hL
    · refine Or.inr ⟨hT, ?_⟩
      rw [hN]
      rw [reachList_cons]
      split <;> simp [reachMatches, hm] <;> omega
  case case7 rest p rl stack st st1 h name hm ih =>
    intro hc ht
    rw [show st1 = { st with poll := st.poll + 1 } from rfl] at ih
    rw [searchGo]
    simp only [h, if_false, Bool.false_eq_true, hm]
    rcases ih hc ht with hL | ⟨hT, hN⟩
    · exact Or.inl hL
    · refine Or.inr ⟨hT, ?_⟩
      rw [hN, reachList_cons]
      simp [reachMatches, hm]
  case case8 rest p rl stack st st1 h name sym rd ch hm hcap ih =>
    intro hc ht
    rw [searchGo]
    simp only [h, if_false, Bool.false_eq_true, hm, if_true, hcap]
    exact Or.inl ((searchGo_inv tests cap (fun _ => false) base [] p rl stack _).2.2.2.2.1 rfl)
  case case9 rest p rl stack st st1 h name sym rd ch pushed hm hcap res st2 st3 ih =>
    intro hc ht
    rw [searchGo]
    simp only [h, if_false, Bool.false_eq_true, hm, if_true, hcap]
    have hst3 : st3 = if 600 ≤ (st.batch ++ [res]).length then
        { st with
            nMatches := st.nMatches + 1
            poll := st.poll + 1
            batch := []
            events := st.events ++ [SEvent.batch base (st.batch ++ [res])] }
      else
        { st with
            nMatches := st.nMatches + 1
            poll := st.poll + 1
            batch := st.batch ++ [res] } := rfl
    have hpu : pushed = if sym = true then stack else
        ({ path := joinPath p name, rel := childRel rl name, readable := rd,
           children := ch } : Frame) :: stack := rfl
    rw [hst3, hpu] at ih
    rcases ih (by split <;> exact hc) (by split <;> exact ht) with hL | ⟨hT, hN⟩
    · exact Or.inl hL
    · refine Or.inr ⟨hT, ?_⟩
      rw [hN, reachList_cons]
      cases sym <;> cases rd <;>
        split <;>
          simp [reachMatches, hm, stackReach_cons, stackReach] <;> omega
  case case10 rest p rl stack st st1 h name sym rd ch pushed hm ih =>
    intro hc ht
    rw [show st1 = { st with poll := st.poll + 1 } from rfl] at ih
    have hpu : pushed = if sym = true then stack else
        ({ path := joinPath p name, rel := childRel rl name, readable := rd,
           children := ch } : Frame) :: stack := rfl
    rw [hpu] at ih
    rw [searchGo]
    simp only [h, if_false, Bool.false_eq_true, hm]
    rcases ih hc ht with hL | ⟨hT, hN⟩
    · exact Or.inl hL
    · refine Or.inr ⟨hT, ?_⟩
      rw [hN, reachList_cons]
      cases sym <;> cases rd <;>
        simp [reachMatches, hm, stackReach_cons, stackReach] <;> omega

/-- The emitted event list of a whole run, in terms of the traversal's
final state: the traversal's batches, the final partial-batch flush, the
conditional truncation signal, and the completion signal. -/
theorem searchRun_eq (tests : List (String → Bool)) (maxResults : Nat) (ext : Nat → Bool)
    (base : String) (rootReadable : Bool) (rootChildren : List FsNode) :
    (searchRun tests maxResults ext base rootReadable rootChildren).events =
      ((searchFinal tests maxResults ext base rootReadable rootChildren).events ++
        (if (searchFinal tests maxResults ext base rootReadable rootChildren).batch = [] then []
         else [SEvent.batch base
           (searchFinal tests maxResults ext base rootReadable rootChildren).batch])) ++
      ((if (searchFinal tests maxResults ext base rootReadable rootChildren).truncated = true
        then [SEvent.truncatedS
          (searchFinal tests maxResults ext base rootReadable rootChildren).nMatches] else []) ++
       [SEvent.finishedS]) := by
  unfold searchRun
  generalize searchFinal tests maxResults ext base rootReadable rootChildren = F
  by_cases hb : F.batch = [] <;> by_cases ht : F.truncated = true <;>
    simp [hb, ht, List.append_assoc]

/-- The results delivered across all batches of a run equal the final
match count, which never passes the cap — for every cancellation
oracle. -/
theorem searchRun_count (tests : List (String → Bool)) (maxResults : Nat) (ext : Nat → Bool)
    (base : String) (rootReadable : Bool) (rootChildren : List FsNode) :
    sResultsCount (searchRun tests maxResults ext base rootReadable rootChildren).events =
      (searchFinal tests maxResults ext base rootReadable rootChildren).nMatches ∧
    (searchFinal tests maxResults ext base rootReadable rootChildren).nMatches ≤
      max 1 maxResults := by
  have hinv : SInv base (max 1 maxResults)
      { nMatches := 0, truncated := false, cancelI := false, poll := 0, batch := [], events := [] }
      (searchFinal tests maxResults ext base rootReadable rootChildren) :=
    searchGo_inv tests (max 1 maxResults) ext base [] "" "" _ _
  obtain ⟨i1, i2, i3, i4, i5, i6⟩ := hinv
  simp [sResultsCount] at i3
  constructor
  · rw [searchRun_eq]
    by_cases hb : (searchFinal tests maxResults ext base rootReadable rootChildren).batch = [] <;>
      by_cases ht :
        (searchFinal tests maxResults ext base rootReadable rootChildren).truncated = true <;>
        simp [hb, ht, sResultsCount_append, sResultsCount]
    all_goals try (rw [hb] at i3; simp at i3)
    all_goals omega
  · exact i1 (Nat.zero_le _)

/-- When the truncation flag ends the traversal set, the final match
count is exactly the cap — for every cancellation oracle. -/
theorem searchFinal_trunc_cap (tests : List (String → Bool)) (maxResults : Nat) (ext : Nat → Bool)
    (base : String) (rootReadable : Bool) (rootChildren : List FsNode)
    (ht : (searchFinal tests maxResults ext base rootReadable rootChildren).truncated = true) :
    (searchFinal tests maxResults ext base rootReadable rootChildren).nMatches =
      max 1 maxResults := by
  have hinv : SInv base (max 1 maxResults)
      { nMatches := 0, truncated := false, cancelI := false, poll := 0, batch := [], events := [] }
      (searchFinal tests maxResults ext base rootReadable rootChildren) :=
    searchGo_inv tests (max 1 maxResults) ext base [] "" "" _ _
  exact (hinv.2.2.2.2.2 (Nat.zero_le _) ht).resolve_left (by simp)

/-- Every event the traversal itself records is a batch for `base`. -/
theorem searchFinal_batches (tests : List (String → Bool)) (maxResults : Nat) (ext : Nat → Bool)
    (base : String) (rootReadable : Bool) (rootChildren : List FsNode) :
    ∀ e ∈ (searchFinal tests maxResults ext base rootReadable rootChildren).events,
      ∃ rs, e = SEvent.batch base rs := by
  have hinv : SInv base (max 1 maxResults)
      { nMatches := 0, truncated := false, cancelI := false, poll := 0, batch := [], events := [] }
      (searchFinal tests maxResults ext base rootReadable rootChildren) :=
    searchGo_inv tests (max 1 maxResults) ext base [] "" "" _ _
  obtain ⟨sfx, heq, hb⟩ := hinv.2.2.2.1
  simp only [List.nil_append] at heq
  rw [heq]
  exact hb

/-- A truncation signal in a run's event list can only come from the
truncation flag, and it carries the final match count. -/
theorem searchRun_trunc_mem (tests : List (String → Bool)) (maxResults : Nat) (ext : Nat → Bool)
    (base : String) (rootReadable : Bool) (rootChildren : List FsNode) (n : Nat)
    (hmem : SEvent.truncatedS n ∈
      (searchRun tests maxResults ext base rootReadable rootChildren).events) :
    (searchFinal tests maxResults ext base rootReadable rootChildren).truncated = true ∧
    n = (searchFinal tests maxResults ext base rootReadable rootChildren).nMatches := by
  rw [searchRun_eq] at hmem
  rcases List.mem_append.mp hmem with h1 | h2
  · rcases List.mem_append.mp h1 with ha | hb
    · obtain ⟨rs, hrs⟩ := searchFinal_batches tests maxResults ext base rootReadable rootChildren
        _ ha
      exact absurd hrs (by simp)
    · by_cases hemp : (searchFinal tests maxResults ext base rootReadable rootChildren).batch = [] <;>
        simp [hemp] at hb
  · rcases List.mem_append.mp h2 with hc | hd
    · by_cases ht :
        (searchFinal tests maxResults ext base rootReadable rootChildren).truncated = true <;>
        simp [ht] at hc
      exact ⟨ht, hc⟩
    · simp at hd

/-- C3: for a search that the caller never cancels, over a tree whose
reachable matches exceed the cap `max 1 maxResults` (`SEARCH_RESULT_LIMIT`
by default), the run's signal trace is a sequence of result batches
followed by exactly `truncated(cap)` and then `finished`, and the batches
deliver exactly `cap` results in total; for every cancellation pattern
the total delivered results never exceed the cap and any truncation
signal carries exactly the cap; and a caller cancellation from the start
suppresses the truncation signal, leaving only `finished`. -/
theorem search_worker_truncation (tests : List (String → Bool)) (maxResults : Nat)
    (base : String) (rootChildren : List FsNode)
    (hover : max 1 maxResults < reachMatchesList tests rootChildren) :
    (∃ bs, (searchRun tests maxResults (fun _ => false) base true rootChildren).events =
        bs ++ [SEvent.truncatedS (max 1 maxResults), SEvent.finishedS] ∧
      (∀ e ∈ bs, ∃ rs, e = SEvent.batch base rs) ∧
      sResultsCount (searchRun tests maxResults (fun _ => false) base true rootChildren).events =
        max 1 maxResults) ∧
    (∀ ext : Nat → Bool,
      sResultsCount (searchRun tests maxResults ext base true rootChildren).events ≤
        max 1 maxResults) ∧
    (∀ (ext : Nat → Bool) (n : Nat),
      SEvent.truncatedS n ∈ (searchRun tests maxResults ext base true rootChildren).events →
        n = max 1 maxResults) ∧
    (searchRun tests maxResults (fun _ => true) base true rootChildren).events =
      [SEvent.finishedS] := by
  refine ⟨?_, ?_, ?_, ?_⟩
  · have hcomp : (searchFinal tests maxResults (fun _ => false) base true rootChildren).truncated
          = true ∨
        ((searchFinal tests maxResults (fun _ => false) base true rootChildren).truncated
            = false ∧
         (searchFinal tests maxResults (fun _ => false) base true rootChildren).nMatches =
           ({ nMatches := 0, truncated := false, cancelI := false, poll := 0, batch := [],
              events := [] } : SState).nMatches + reachMatchesList tests [] +
             stackReach tests
               [{ path := base, rel := "", readable := true, children := rootChildren }]) :=
      searchGo_complete tests (max 1 maxResults) base [] "" "" _ _ rfl rfl
    have hcnt := searchRun_count tests maxResults (fun _ => false) base true rootChildren
    rcases hcomp with ht | ⟨_, hn⟩
    · have hcap := searchFinal_trunc_cap tests maxResults (fun _ => false) base true
        rootChildren ht
      refine ⟨(searchFinal tests maxResults (fun _ => false) base true rootChildren).events ++
        (if (searchFinal tests maxResults (fun _ => false) base true rootChildren).batch = []
         then []
         else [SEvent.batch base
           (searchFinal tests maxResults (fun _ => false) base true rootChildren).batch]),
        ?_, ?_, ?_⟩
      · rw [searchRun_eq, ht, hcap]
        simp
      · intro e he
        rcases List.mem_append.mp he with ha | hb
        · exact searchFinal_batches tests maxResults (fun _ => false) base true rootChildren e ha
        · by_cases hemp :
            (searchFinal tests maxResults (fun _ => false) base true rootChildren).batch = [] <;>
            simp [hemp] at hb
          exact ⟨_, hb⟩
      · rw [hcnt.1, hcap]
    · exfalso
      rw [stackReach_cons] at hn
      simp [reachMatchesList, stackReach] at hn
      have := hcnt.2
      omega
  · intro ext
    have hcnt := searchRun_count tests maxResults ext base true rootChildren
    exact le_of_eq_of_le hcnt.1 hcnt.2
  · intro ext n hmem
    obtain ⟨ht, hn⟩ := searchRun_trunc_mem tests maxResults ext base true rootChildren n hmem
    rw [hn]
    exact searchFinal_trunc_cap tests maxResults ext base true rootChildren ht
  · have hF : searchFinal tests maxResults (fun _ => true) base true rootChildren =
        { nMatches := 0, truncated := false, cancelI := false, poll := 1, batch := [],
          events := [] } := by
      unfold searchFinal
      rw [searchGo]
      simp
    rw [searchRun_eq, hF]
    simp


/-- Concrete instance: cap 1, two matching files under the root. -/
theorem search_worker_truncation_witness :
    max 1 1 < reachMatchesList [fun _ => true] [FsNode.file "a", FsNode.file "c"] ∧
    ((∃ bs, (searchRun [fun _ => true] 1 (fun _ => false) "b" true
        [FsNode.file "a", FsNode.file "c"]).events =
        bs ++ [SEvent.truncatedS (max 1 1), SEvent.finishedS] ∧
      (∀ e ∈ bs, ∃ rs, e = SEvent.batch "b" rs) ∧
      sResultsCount (searchRun [fun _ => true] 1 (fun _ => false) "b" true
        [FsNode.file "a", FsNode.file "c"]).events = max 1 1) ∧
     (∀ ext : Nat → Bool, sResultsCount (searchRun [fun _ => true] 1 ext "b" true
        [FsNode.file "a", FsNode.file "c"]).events ≤ max 1 1) ∧
     (∀ (ext : Nat → Bool) (n : Nat), SEvent.truncatedS n ∈ (searchRun [fun _ => true] 1 ext "b"
        true [FsNode.file "a", FsNode.file "c"]).events → n = max 1 1) ∧
     (searchRun [fun _ => true] 1 (fun _ => true) "b" true
        [FsNode.file "a", FsNode.file "c"]).events = [SEvent.finishedS]) :=
  ⟨by decide, search_worker_truncation [fun _ => true] 1 "b" [FsNode.file "a", FsNode.file "c"]
    (by decide)⟩

end MultiPane
